import Mathlib

set_option linter.unreachableTactic false

set_option linter.unusedTactic false

/-
Verification of the Hua Rong Dao sliding-puzzle solver (hrd_starter.py).

Shallow embedding conventions:
* Python ints are `Int`; grid cells are `Char` exactly as in the source
  ('.', '1', '2', '<', '>', '^', 'v').
* Python list indexing is modelled by `pyIdx`: an in-range index, a single
  negative wrap-around, and otherwise an IndexError.  Fallible code returns
  `Option`; `none` models an uncaught Python exception (IndexError /
  AttributeError).
* `hash(board)` is a function of the grid alone, so the canonical id of a
  state is modelled by the grid itself (the collision-free idealisation the
  design relies on).
* Loops whose termination is not structural are run with an explicit fuel
  argument that matches the bound the Python loop actually has.
-/

namespace HRD

abbrev Cell := Int × Int

abbrev Grid := List (List Char)

/-- Python list indexing: in range, one negative wrap, else IndexError. -/
def pyIdx (n : Int) (len : Nat) : Option Nat :=
  if 0 ≤ n ∧ n < (len : Int) then some n.toNat
  else if -(len : Int) ≤ n ∧ n < 0 then some (n + len).toNat
  else none

/-- Read grid[y][x] with Python indexing semantics. -/
def getCell (g : Grid) (y x : Int) : Option Char := do
  let i ← pyIdx y g.length
  let row := g.getD i []
  let j ← pyIdx x row.length
  pure (row.getD j '.')

/-- Write grid[y][x] = c with Python indexing semantics. -/
def setCell (g : Grid) (y x : Int) (c : Char) : Option Grid := do
  let i ← pyIdx y g.length
  let row := g.getD i []
  let j ← pyIdx x row.length
  pure (g.set i (row.set j c))

/-- Total cell read used by spec-level predicates (only applied in bounds). -/
def cellAt (g : Grid) (c : Cell) : Char :=
  (g.getD c.2.toNat []).getD c.1.toNat '.'

def char_goal : Char := '1'

def char_single : Char := '2'

/-- Mirrors class Piece: category flags, top-left corner, orientation. -/
structure Piece where
  is_goal : Bool
  is_single : Bool
  coord_x : Int
  coord_y : Int
  orientation : Option Char
deriving DecidableEq, Repr

/-- shape = (2,2) if goal else (1,2) if 'h' else (2,1) if 'v' else (1,1);
first component is the height, second the width, as in the source. -/
def Piece.shape (p : Piece) : Int × Int :=
  if p.is_goal then (2, 2)
  else if p.orientation = some 'h' then (1, 2)
  else if p.orientation = some 'v' then (2, 1)
  else (1, 1)

/-- The grid cells a piece occupies, in the order `is_valid` inserts them. -/
def footprint (p : Piece) : List Cell :=
  if p.is_goal then
    [(p.coord_x, p.coord_y), (p.coord_x + 1, p.coord_y),
     (p.coord_x, p.coord_y + 1), (p.coord_x + 1, p.coord_y + 1)]
  else if p.is_single then [(p.coord_x, p.coord_y)]
  else if p.orientation = some 'h' then
    [(p.coord_x, p.coord_y), (p.coord_x + 1, p.coord_y)]
  else if p.orientation = some 'v' then
    [(p.coord_x, p.coord_y), (p.coord_x, p.coord_y + 1)]
  else []

def fpF (p : Piece) : Finset Cell := (footprint p).toFinset

/-- The positions set built by `is_valid` (set union over all pieces). -/
def positions (pieces : List Piece) : Finset Cell :=
  pieces.foldl (fun s p => s ∪ fpF p) ∅

/-- is_valid: the number of distinct occupied cells equals len(pieces) + 8. -/
def is_valid (pieces : List Piece) : Bool :=
  (positions pieces).card == pieces.length + 8

/-- Place one piece's characters on the grid (the body of __construct_grid). -/
def placePiece (g : Grid) (p : Piece) : Option Grid :=
  if p.is_goal then do
    let g ← setCell g p.coord_y p.coord_x char_goal
    let g ← setCell g p.coord_y (p.coord_x + 1) char_goal
    let g ← setCell g (p.coord_y + 1) p.coord_x char_goal
    let g ← setCell g (p.coord_y + 1) (p.coord_x + 1) char_goal
    pure g
  else if p.is_single then setCell g p.coord_y p.coord_x char_single
  else if p.orientation = some 'h' then do
    let g ← setCell g p.coord_y p.coord_x '<'
    let g ← setCell g p.coord_y (p.coord_x + 1) '>'
    pure g
  else if p.orientation = some 'v' then do
    let g ← setCell g p.coord_y p.coord_x '^'
    let g ← setCell g (p.coord_y + 1) p.coord_x 'v'
    pure g
  else pure g

def emptyGrid : Grid := List.replicate 5 (List.replicate 4 '.')

/-- The grid part of Board.__construct_grid. -/
def buildGrid (pieces : List Piece) : Option Grid :=
  pieces.foldlM placePiece emptyGrid

/-- One row of the empty-cell scan.  `acc` plays the role of the two
`self.empty` slots: a third '.' while both slots are filled is the Python
IndexError (`self.empty[2] = ...`); reaching two stops the current row only
(the `break` leaves the outer row loop running). -/
def scanRowCells : List Char → Int → Int → List Cell → Option (List Cell)
  | [], _, _, acc => some acc
  | c :: rest, j, i, acc =>
    if c = '.' then
      if acc.length = 2 then none
      else
        let acc2 := acc ++ [(j, i)]
        if acc2.length = 2 then some acc2
        else scanRowCells rest (j + 1) i acc2
    else scanRowCells rest (j + 1) i acc

def scanRows : List (List Char) → Int → List Cell → Option (List Cell)
  | [], _, acc => some acc
  | row :: rest, i, acc => do
    let acc2 ← scanRowCells row 0 i acc
    scanRows rest (i + 1) acc2

/-- The empty-space update loop of __construct_grid. -/
def scanEmpties (g : Grid) : Option (List Cell) := scanRows g 0 []

/-- Mirrors class Board: the piece list, the derived grid, and the tracked
empty cells (which move_piece later overwrites with its own bookkeeping). -/
structure Board where
  pieces : List Piece
  grid : Grid
  empty : List Cell
deriving DecidableEq, Repr

/-- Board.__init__ / __construct_grid.  `none` models an uncaught Python
exception during construction. -/
def mkBoard (pieces : List Piece) : Option Board := do
  let g ← buildGrid pieces
  let es ← scanEmpties g
  pure ⟨pieces, g, es⟩

/-- Board.heuristic: Manhattan distance of the first goal piece's top-left
corner from (1, 3); 0 if no goal piece is found. -/
def Board.heuristic (b : Board) : Int :=
  match b.pieces.find? (fun p => p.is_goal) with
  | some p => |p.coord_x - 1| + |p.coord_y - 3|
  | none => 0

/-- range(a, b) over Ints. -/
def intRange (a b : Int) : List Int := (List.range (b - a).toNat).map (fun k => a + k)

/-- The row part of linear_conflict: while the goal piece is above goal_y,
count non-'.' cells in rows range(coord_y + 2, 4) over columns
range(coord_x, coord_x + 2). -/
def lcRowSum (b : Board) (caocao : Piece) : Option Int :=
  if caocao.coord_y < 3 then
    (intRange (caocao.coord_y + 2) 4).foldlM (fun acc row =>
      (intRange caocao.coord_x (caocao.coord_x + 2)).foldlM (fun acc2 col => do
        let c ← getCell b.grid row col
        pure (if c ≠ '.' then acc2 + 1 else acc2)) acc) (0 : Int)
  else pure 0

/-- The column part of linear_conflict: while the goal piece is left of
goal_x, columns range(coord_x + 2, 2) over rows range(coord_y, coord_y + 2). -/
def lcColSum (b : Board) (caocao : Piece) : Option Int :=
  if caocao.coord_x < 1 then
    (intRange (caocao.coord_x + 2) 2).foldlM (fun acc col =>
      (intRange caocao.coord_y (caocao.coord_y + 2)).foldlM (fun acc2 row => do
        let c ← getCell b.grid row col
        pure (if c ≠ '.' then acc2 + 1 else acc2)) acc) (0 : Int)
  else pure 0

/-- AStar.linear_conflict.  Grid reads are fallible exactly where the Python
indexing is unguarded. -/
def linear_conflict (b : Board) : Option Int :=
  match b.pieces.find? (fun p => p.is_goal) with
  | none => pure 0
  | some caocao => do
    let rowC ← lcRowSum b caocao
    let colC ← lcColSum b caocao
    pure ((rowC + colC) * 2)

/-- AStar.heuristic: linear_conflict(board) + board.heuristic(). -/
def heuristicT (b : Board) : Option Int := do
  let lc ← linear_conflict b
  pure (lc + b.heuristic)

/-- The four direction keys of the move generator's dict, in insertion order
(up, down, left, right). -/
inductive Dir where
  | up
  | down
  | left
  | right
deriving DecidableEq, Repr

/-- Result of move_piece at board level: `crash` is an uncaught Python
exception, `noMove` is `return None`, `moved` returns the new Board. -/
inductive MoveRes where
  | crash
  | noMove
  | moved (b : Board)
deriving Repr, DecidableEq

/-- The `for x, y in empty_spaces` repair loop at the end of move_piece,
with Python's semantics of mutating the list being iterated (an index-based
iterator; `remove` erases the first occurrence of the value).  The fuel is
the initial length, which the loop never exceeds because each iteration
either leaves the list alone or removes one element and appends one. -/
def fixStep (g : Grid) (nE2 : Cell) : Nat → Nat → List Cell → Option (List Cell)
  | 0, _, lst => some lst
  | fuel + 1, idx, lst =>
    if h : idx < lst.length then
      match lst.get ⟨idx, h⟩ with
      | (x, y) =>
        match getCell g y x with
        | none => none
        | some c =>
          if c ≠ '.' then fixStep g nE2 fuel (idx + 1) ((lst.erase (x, y)) ++ [nE2])
          else fixStep g nE2 fuel (idx + 1) lst
    else some lst

def fixEmpty (g : Grid) (nE2 : Cell) (lst : List Cell) : Option (List Cell) :=
  fixStep g nE2 lst.length 0 lst

/-- The tail of move_piece after the direction branches: is_valid check,
Board construction, empty-list repair, and the `new_board.empty =
empty_spaces` overwrite. -/
def mpFinish (new_pieces : List Piece) (es : List Cell) (nE2 : Cell) : MoveRes :=
  if is_valid new_pieces then
    match mkBoard new_pieces with
    | none => .crash
    | some nb =>
      match fixEmpty nb.grid nE2 es with
      | none => .crash
      | some esF => .moved { nb with empty := esF }
  else .noMove

/-- The four direction branches of move_piece, acting on the first piece `p`
of the copied list that equals the requested piece; `acc` is the prefix of
the list before it.  The `else` of the chain is `return None`.  When the
checked adjacent cell is not tracked as empty, the piece is left unmoved and
control still falls through to the validation tail. -/
def mpBody (acc : List Piece) (p : Piece) (rest : List Piece) (d : Dir) (es : List Cell) :
    MoveRes :=
  if d = Dir.down ∧ p.coord_y > 0 then
    let nE1 : Cell := (p.coord_x, p.coord_y + p.shape.1 - 1)
    let nE2 : Cell := (p.coord_x + p.shape.2 - 1, p.coord_y + p.shape.1 - 1)
    if (p.coord_x, p.coord_y - 1) ∈ es then
      mpFinish (acc ++ { p with coord_y := p.coord_y - 1 } :: rest)
        ((es.erase (p.coord_x, p.coord_y - 1)) ++ [nE1]) nE2
    else mpFinish (acc ++ p :: rest) es nE2
  else if d = Dir.up ∧ p.coord_y + p.shape.1 < 5 then
    let nE1 : Cell := (p.coord_x, p.coord_y)
    let nE2 : Cell := (p.coord_x + p.shape.2 - 1, p.coord_y)
    if (p.coord_x, p.coord_y + p.shape.1) ∈ es then
      mpFinish (acc ++ { p with coord_y := p.coord_y + 1 } :: rest)
        ((es.erase (p.coord_x, p.coord_y + p.shape.1)) ++ [nE1]) nE2
    else mpFinish (acc ++ p :: rest) es nE2
  else if d = Dir.right ∧ p.coord_x > 0 then
    let nE1 : Cell := (p.coord_x + p.shape.2 - 1, p.coord_y)
    let nE2 : Cell := (p.coord_x + p.shape.2 - 1, p.coord_y + p.shape.1 - 1)
    if (p.coord_x - 1, p.coord_y) ∈ es then
      mpFinish (acc ++ { p with coord_x := p.coord_x - 1 } :: rest)
        ((es.erase (p.coord_x - 1, p.coord_y)) ++ [nE1]) nE2
    else mpFinish (acc ++ p :: rest) es nE2
  else if d = Dir.left ∧ p.coord_x + p.shape.2 < 4 then
    let nE1 : Cell := (p.coord_x, p.coord_y)
    let nE2 : Cell := (p.coord_x, p.coord_y + p.shape.1 - 1)
    if (p.coord_x + p.shape.2, p.coord_y) ∈ es then
      mpFinish (acc ++ { p with coord_x := p.coord_x + 1 } :: rest)
        ((es.erase (p.coord_x + p.shape.2, p.coord_y)) ++ [nE1]) nE2
    else mpFinish (acc ++ p :: rest) es nE2
  else MoveRes.noMove

/-- The `for p in new_pieces: if p == piece:` search of move_piece. -/
def mpLoop (piece : Piece) (d : Dir) (es : List Cell) :
    List Piece → List Piece → MoveRes
  | _, [] => MoveRes.noMove
  | acc, p :: rest =>
    if p = piece then mpBody acc p rest d es
    else mpLoop piece d es (acc ++ [p]) rest

/-- move_piece (identical in the DFS and AStar classes up to State creation,
which is split off below). -/
def move_piece (b : Board) (piece : Piece) (d : Dir) : MoveRes :=
  mpLoop piece d b.empty [] b.pieces

/-- Mirrors class State; the canonical id is the grid (see header note). -/
inductive State : Type where
  | mk (board : Board) (f : Int) (depth : Nat) (parent : Option State)

def State.board : State → Board
  | .mk b _ _ _ => b

def State.f : State → Int
  | .mk _ f _ _ => f

def State.depth : State → Nat
  | .mk _ _ d _ => d

def State.parent : State → Option State
  | .mk _ _ _ par => par

def State.id (s : State) : Grid := s.board.grid

/-- print_solution: the root-to-node board sequence along parent links. -/
def State.path : State → List Board
  | .mk b _ _ none => [b]
  | .mk b _ _ (some par) => State.path par ++ [b]

instance : Inhabited State := ⟨.mk ⟨[], [], []⟩ 0 0 none⟩

/-- heapq._siftdown: bubble `newitem` up from `pos` toward `startpos`.  The
fuel starts at `pos`, which bounds the strictly decreasing position. -/
def siftdownGo (startpos : Nat) (newitem : State) : Nat → Nat → List State → List State
  | 0, pos, heap => heap.set pos newitem
  | fuel + 1, pos, heap =>
    if startpos < pos then
      let parentpos := (pos - 1) / 2
      let parent := heap.getD parentpos default
      if newitem.f < parent.f then
        siftdownGo startpos newitem fuel parentpos (heap.set pos parent)
      else heap.set pos newitem
    else heap.set pos newitem

def siftdown (heap : List State) (startpos pos : Nat) : List State :=
  siftdownGo startpos (heap.getD pos default) pos pos heap

/-- heapq.heappush. -/
def heappush (heap : List State) (item : State) : List State :=
  siftdown (heap ++ [item]) 0 heap.length

/-- heapq._siftup's walk down to a leaf along the smaller-child path
(comparisons use State.__lt__, i.e. the f value only). -/
def siftupGo (endpos : Nat) : Nat → Nat → List State → Nat × List State
  | 0, pos, heap => (pos, heap)
  | fuel + 1, pos, heap =>
    let childpos := 2 * pos + 1
    if childpos < endpos then
      let rightpos := childpos + 1
      let childpos :=
        if rightpos < endpos ∧
            ¬ ((heap.getD childpos default).f < (heap.getD rightpos default).f) then
          rightpos
        else childpos
      siftupGo endpos fuel childpos (heap.set pos (heap.getD childpos default))
    else (pos, heap)

def siftup (heap : List State) (pos : Nat) : List State :=
  let endpos := heap.length
  let newitem := heap.getD pos default
  let pr := siftupGo endpos endpos pos heap
  siftdown (pr.2.set pr.1 newitem) pos pr.1

/-- heapq.heappop (None on an empty heap; the drivers' loop guard prevents
that call). -/
def heappop (heap : List State) : Option (State × List State) :=
  match heap.getLast? with
  | none => none
  | some lastelt =>
    let rest := heap.dropLast
    if rest.isEmpty then some (lastelt, [])
    else some (rest.getD 0 default, siftup (rest.set 0 lastelt) 0)

/-- The membership test of get_piece_at for one piece (the elif chain all
returns the same piece, so it is the disjunction of the four conjunctions). -/
def pieceAt (p : Piece) (x y : Int) : Bool :=
  (p.is_goal && decide ((x, y) ∈ [(p.coord_x, p.coord_y), (p.coord_x + 1, p.coord_y),
    (p.coord_x, p.coord_y + 1), (p.coord_x + 1, p.coord_y + 1)]))
  || (p.is_single && decide ((x, y) = (p.coord_x, p.coord_y)))
  || (decide (p.orientation = some 'h') &&
      decide ((x, y) ∈ [(p.coord_x, p.coord_y), (p.coord_x + 1, p.coord_y)]))
  || (decide (p.orientation = some 'v') &&
      decide ((x, y) ∈ [(p.coord_x, p.coord_y), (p.coord_x, p.coord_y + 1)]))

def get_piece_at (b : Board) (x y : Int) : Option Piece :=
  b.pieces.find? (fun p => pieceAt p x y)

/-- Result of one successor attempt at State level. -/
inductive StRes where
  | crash
  | noMove
  | made (st : State)

/-- AStar.move_piece's State creation: f = depth + 1 + heuristic(new board). -/
def astar_move (cur : State) (piece : Piece) (d : Dir) : StRes :=
  match move_piece cur.board piece d with
  | .crash => .crash
  | .noMove => .noMove
  | .moved nb =>
    match heuristicT nb with
    | none => .crash
    | some h => .made (State.mk nb ((cur.depth + 1 : Int) + h) (cur.depth + 1) (some cur))

/-- DFS.move_piece's State creation: f is the constant 1. -/
def dfs_move (cur : State) (piece : Piece) (d : Dir) : StRes :=
  match move_piece cur.board piece d with
  | .crash => .crash
  | .noMove => .noMove
  | .moved nb => .made (State.mk nb 1 (cur.depth + 1) (some cur))

def directions : List (Dir × Int × Int) :=
  [(Dir.up, 0, -1), (Dir.down, 0, 1), (Dir.left, -1, 0), (Dir.right, 1, 0)]

/-- The (empty cell, direction) trial order of get_actions. -/
def gaPairs (b : Board) : List (Cell × Dir × Int × Int) :=
  b.empty.foldr (fun e l => directions.map (fun dd => (e, dd)) ++ l) []

/-- One iteration of AStar.get_actions: `none` = crash, `some none` =
nothing appended, `some (some st)` = st appended. -/
def gaStep (cur : State) (visited : List Grid) (pr : Cell × Dir × Int × Int) :
    Option (Option State) :=
  match pr with
  | ((ex, ey), d, dx, dy) =>
    let nx := ex + dx
    let ny := ey + dy
    if 0 ≤ nx ∧ nx < 4 ∧ 0 ≤ ny ∧ ny < 5 then
      match getCell cur.board.grid ny nx with
      | none => none
      | some c =>
        if c ≠ '.' then
          match get_piece_at cur.board nx ny with
          | none => none
          | some piece =>
            match astar_move cur piece d with
            | .crash => none
            | .noMove => some none
            | .made st => if st.id ∈ visited then some none else some (some st)
        else some none
    else some none

def gaLoop (cur : State) (visited : List Grid) :
    List (Cell × Dir × Int × Int) → Option (List State)
  | [] => some []
  | pr :: rest =>
    match gaStep cur visited pr with
    | none => none
    | some none => gaLoop cur visited rest
    | some (some st) => (gaLoop cur visited rest).map (fun l => st :: l)

/-- AStar.get_actions (does not mutate the visited set). -/
def get_actions (cur : State) (visited : List Grid) : Option (List State) :=
  gaLoop cur visited (gaPairs cur.board)

/-- One iteration of DFS.get_actions (same trial, DFS State creation). -/
def dfsGaStep (cur : State) (visited : List Grid) (pr : Cell × Dir × Int × Int) :
    Option (Option State) :=
  match pr with
  | ((ex, ey), d, dx, dy) =>
    let nx := ex + dx
    let ny := ey + dy
    if 0 ≤ nx ∧ nx < 4 ∧ 0 ≤ ny ∧ ny < 5 then
      match getCell cur.board.grid ny nx with
      | none => none
      | some c =>
        if c ≠ '.' then
          match get_piece_at cur.board nx ny with
          | none => none
          | some piece =>
            match dfs_move cur piece d with
            | .crash => none
            | .noMove => some none
            | .made st => if st.id ∈ visited then some none else some (some st)
        else some none
    else some none

/-- DFS.get_actions also inserts each accepted successor into the visited
set as it goes. -/
def dfsGaLoop (cur : State) :
    List Grid → List (Cell × Dir × Int × Int) → Option (List State × List Grid)
  | visited, [] => some ([], visited)
  | visited, pr :: rest =>
    match dfsGaStep cur visited pr with
    | none => none
    | some none => dfsGaLoop cur visited rest
    | some (some st) =>
      (dfsGaLoop cur (st.id :: visited) rest).map (fun r => (st :: r.1, r.2))

def dfs_get_actions (cur : State) (visited : List Grid) :
    Option (List State × List Grid) :=
  dfsGaLoop cur visited (gaPairs cur.board)

/-- Search outcome: Solved carries the printed depth and the printed
initial-to-goal board sequence; noSolution is the normal exhausted-frontier
return; crash is an uncaught exception. -/
inductive Outcome where
  | solved (depth : Nat) (path : List Board)
  | noSolution
  | fuelOut
  | crash
deriving DecidableEq, Repr

/-- The while loop of AStar.astar. -/
def astarLoop : Nat → List State → List Grid → Outcome
  | 0, _, _ => .fuelOut
  | fuel + 1, frontier, visited =>
    match heappop frontier with
    | none => .noSolution
    | some (cur, rest) =>
      match heuristicT cur.board with
      | none => .crash
      | some h =>
        if h = 0 then .solved cur.depth cur.path
        else
          let visited2 := cur.id :: visited
          match get_actions cur visited2 with
          | none => .crash
          | some actions =>
            let fv := actions.foldl (fun fv a =>
              if a.id ∈ fv.2 then fv else (heappush fv.1 a, a.id :: fv.2))
              (rest, visited2)
            astarLoop fuel fv.1 fv.2

/-- AStar.__init__: root State with f = heuristic(board), depth 0; the
frontier is a singleton heap and the root id is pre-visited. -/
def astarInit (b : Board) : Option (List State × List Grid) :=
  (heuristicT b).map (fun h => (heappush [] (State.mk b h 0 none), [b.grid]))

def astar (b : Board) (fuel : Nat) : Outcome :=
  match astarInit b with
  | none => .crash
  | some fv => astarLoop fuel fv.1 fv.2

/-- Board construction followed by the A* driver, as __main__ wires them. -/
def astarFromPieces (pieces : List Piece) (fuel : Nat) : Outcome :=
  match mkBoard pieces with
  | none => .crash
  | some b => astar b fuel

/-- The while loop of DFS.dfs (LIFO: pop from the end, append successors). -/
def dfsLoop : Nat → List State → List Grid → Outcome
  | 0, _, _ => .fuelOut
  | fuel + 1, frontier, visited =>
    match frontier.getLast? with
    | none => .noSolution
    | some cur =>
      let rest := frontier.dropLast
      if cur.board.heuristic = 0 then .solved cur.depth cur.path
      else
        match dfs_get_actions cur visited with
        | none => .crash
        | some av => dfsLoop fuel (rest ++ av.1) av.2

def dfs (b : Board) (fuel : Nat) : Outcome :=
  dfsLoop fuel [State.mk b 1 0 none] [b.grid]

/-! ### Concrete fixtures -/

def goalP (x y : Int) : Piece := ⟨true, false, x, y, none⟩

def singleP (x y : Int) : Piece := ⟨false, true, x, y, none⟩

def hP (x y : Int) : Piece := ⟨false, false, x, y, some 'h'⟩

def vP (x y : Int) : Piece := ⟨false, false, x, y, some 'v'⟩

/-- A standard-composition solvable board: goal at (1,0), two vertical and
three horizontal 1×2 pieces, four singles, empties (1,4) and (2,4). -/
def c4pieces : List Piece :=
  [goalP 1 0, vP 0 0, vP 3 0, hP 0 2, hP 2 2, hP 1 3,
   singleP 0 3, singleP 3 3, singleP 0 4, singleP 3 4]

def c4board : Board := (mkBoard c4pieces).getD ⟨[], [], []⟩

/-- Three overlapping 2×2 pieces whose distinct-cell count is 11 = 3 + 8. -/
def c10pieces : List Piece := [goalP 0 0, goalP 1 1, goalP 0 3]

/-- 17 occupied cells; the three empty cells all sit in the last row. -/
def cList3 : List Piece :=
  [goalP 0 0, hP 2 0, hP 2 1, hP 0 2, hP 2 2, hP 0 3, hP 2 3, singleP 3 4]

def board3 : Board := (mkBoard cList3).getD ⟨[], [], []⟩

/-- 17 occupied cells; empties (3,2), (3,3), (3,4) sit in three distinct
rows, so the scan meets a third '.' after both slots are filled. -/
def cListIdx : List Piece :=
  [goalP 0 0, hP 2 0, hP 2 1, hP 0 2, singleP 2 2, hP 0 3, singleP 2 3,
   hP 0 4, singleP 2 4]

/-- The standard board plus a single overlapping the goal piece's cell. -/
def cListOv : List Piece := c4pieces ++ [singleP 0 0]

def boardOv : Board := (mkBoard cListOv).getD ⟨[], [], []⟩

/-- A lone goal piece at (1,0) on an otherwise empty board (Scenario 1). -/
def c5pieces : List Piece := [goalP 1 0]


/-! ### The conflict bands scanned by linear_conflict -/

/-- A grid read as the Python expression `grid[r][c] != '.'` sees it (with
`'.'` substituted where the read would raise, a case that never survives
because `linear_conflict` then crashes as a whole). -/
def cellPy (g : Grid) (r c : Int) : Char := (getCell g r c).getD '.'

def countOccPy (g : Grid) (cells : List (Int × Int)) : Nat :=
  cells.countP (fun rc => cellPy g rc.1 rc.2 != '.')

/-- The (row, col) cells the code's row scan visits: rows from
coord_y + 2 up to and including 3 (the first target-footprint row), over
the goal piece's current two columns. -/
def rowBandCells (p : Piece) : List (Int × Int) :=
  (intRange (p.coord_y + 2) 4).flatMap
    (fun r => (intRange p.coord_x (p.coord_x + 2)).map (fun c => (r, c)))

/-- The (row, col) cells the code's column scan visits: columns from
coord_x + 2 up to and including 1, over the piece's current two rows
(an empty list whenever the piece is in bounds, since coord_x < 1 forces
coord_x ≤ 0). -/
def colBandCells (p : Piece) : List (Int × Int) :=
  (intRange (p.coord_x + 2) 2).flatMap
    (fun c => (intRange p.coord_y (p.coord_y + 2)).map (fun r => (r, c)))

/-- What the code's heuristic penalty actually counts (before doubling). -/
def codeConflict (b : Board) : Int :=
  match b.pieces.find? (fun p => p.is_goal) with
  | none => 0
  | some p =>
    (if p.coord_y < 3 then (countOccPy b.grid (rowBandCells p) : Int) else 0) +
    (if p.coord_x < 1 then (countOccPy b.grid (colBandCells p) : Int) else 0)

/-- Modelled from the spec: LinearConflictPenalty counts, on each travel
axis, the occupied cells strictly between the goal piece's current footprint
and its target footprint, the target footprint's own cells excluded — so
the row band stops strictly before target row 3. -/
def specConflict (b : Board) : Int :=
  match b.pieces.find? (fun p => p.is_goal) with
  | none => 0
  | some p =>
    (if p.coord_y < 3 then
      (countOccPy b.grid ((intRange (p.coord_y + 2) 3).flatMap
        (fun r => (intRange p.coord_x (p.coord_x + 2)).map (fun c => (r, c)))) : Int)
     else 0) +
    (if p.coord_x < 1 then
      (countOccPy b.grid ((intRange (p.coord_x + 2) 1).flatMap
        (fun c => (intRange p.coord_y (p.coord_y + 2)).map (fun r => (r, c)))) : Int)
     else 0)


def bW : Board := Board.mk [goalP 1 3] [] []

def stW : State := State.mk bW 0 0 none


def rootC4 : State := State.mk c4board 11 0 none

def c4succ : State :=
  match astar_move rootC4 (hP 1 3) Dir.up with
  | .made st => st
  | _ => default


/-! ### Spec-level predicates about piece lists and grids -/

/-- Pairwise non-intersecting footprints. -/
def PW (pieces : List Piece) : Prop :=
  List.Pairwise (fun p q => ∀ c ∈ footprint p, c ∉ footprint q) pieces

instance (l : List Piece) : Decidable (PW l) := by
  unfold PW
  infer_instance

/-- Total footprint size (with multiplicity across pieces). -/
def sumFp (pieces : List Piece) : Nat := (pieces.map (fun p => (fpF p).card)).sum

/-- A piece of one of the four real categories (the reader of a puzzle file
only produces these). -/
def realPiece (p : Piece) : Prop :=
  (p.is_goal = true ∧ p.is_single = false ∧ p.orientation = none) ∨
    (p.is_goal = false ∧ p.is_single = true ∧ p.orientation = none) ∨
    (p.is_goal = false ∧ p.is_single = false ∧
      (p.orientation = some 'h' ∨ p.orientation = some 'v'))

instance (p : Piece) : Decidable (realPiece p) := by
  unfold realPiece; infer_instance

def nGoal (pieces : List Piece) : Nat := pieces.countP (fun p => p.is_goal)

def nDouble (pieces : List Piece) : Nat :=
  pieces.countP (fun p => !p.is_goal && !p.is_single &&
    (p.orientation == some 'h' || p.orientation == some 'v'))

def countDots (g : Grid) : Nat := (g.map (fun row => row.count '.')).sum

/-! ### Direction-parametric view of the move_piece branches -/

/-- The guard of the branch move_piece takes for direction d. -/
def guardOf (p : Piece) : Dir → Prop
  | .down => p.coord_y > 0
  | .up => p.coord_y + p.shape.1 < 5
  | .right => p.coord_x > 0
  | .left => p.coord_x + p.shape.2 < 4

instance (p : Piece) (d : Dir) : Decidable (guardOf p d) := by
  cases d <;> simp only [guardOf] <;> infer_instance

/-- The single cell whose membership in empty_spaces move_piece checks. -/
def checkCellOf (p : Piece) : Dir → Cell
  | .down => (p.coord_x, p.coord_y - 1)
  | .up => (p.coord_x, p.coord_y + p.shape.1)
  | .right => (p.coord_x - 1, p.coord_y)
  | .left => (p.coord_x + p.shape.2, p.coord_y)

/-- new_empty1 of the branch. -/
def nE1Of (p : Piece) : Dir → Cell
  | .down => (p.coord_x, p.coord_y + p.shape.1 - 1)
  | .up => (p.coord_x, p.coord_y)
  | .right => (p.coord_x + p.shape.2 - 1, p.coord_y)
  | .left => (p.coord_x, p.coord_y)

/-- new_empty2 of the branch. -/
def nE2Of (p : Piece) : Dir → Cell
  | .down => (p.coord_x + p.shape.2 - 1, p.coord_y + p.shape.1 - 1)
  | .up => (p.coord_x + p.shape.2 - 1, p.coord_y)
  | .right => (p.coord_x + p.shape.2 - 1, p.coord_y + p.shape.1 - 1)
  | .left => (p.coord_x, p.coord_y + p.shape.1 - 1)

/-- The coordinate mutation of the branch (note the inverted naming: the
direction names the side of the empty cell the piece sits on). -/
def movedOf (p : Piece) : Dir → Piece
  | .down => { p with coord_y := p.coord_y - 1 }
  | .up => { p with coord_y := p.coord_y + 1 }
  | .right => { p with coord_x := p.coord_x - 1 }
  | .left => { p with coord_x := p.coord_x + 1 }

/-! ### Bounds and the board validity invariant -/

/-- A piece whose shape box lies inside the 4 × 5 grid. -/
def inB (p : Piece) : Prop :=
  0 ≤ p.coord_x ∧ p.coord_x + p.shape.2 ≤ 4 ∧ 0 ≤ p.coord_y ∧ p.coord_y + p.shape.1 ≤ 5

instance (p : Piece) : Decidable (inB p) := by
  unfold inB
  infer_instance

def inBCell (c : Cell) : Prop := 0 ≤ c.1 ∧ c.1 < 4 ∧ 0 ≤ c.2 ∧ c.2 < 5

instance (c : Cell) : Decidable (inBCell c) := by
  unfold inBCell
  infer_instance

def allCellsF : Finset Cell := (Finset.Ico (0 : Int) 4) ×ˢ (Finset.Ico (0 : Int) 5)

def emptyF (g : Grid) : Finset Cell := allCellsF.filter (fun c => cellAt g c = '.')

def occF (g : Grid) : Finset Cell := allCellsF.filter (fun c => cellAt g c ≠ '.')

/-- The row-major list of '.' cells of one row, starting at column j. -/
def rowDots : List Char → Int → Int → List Cell
  | [], _, _ => []
  | c :: rest, j, i =>
    if c = '.' then (j, i) :: rowDots rest (j + 1) i else rowDots rest (j + 1) i

/-- The row-major list of '.' cells of the grid, starting at row i. -/
def gridDots : List (List Char) → Int → List Cell
  | [], _ => []
  | row :: rest, i => rowDots row 0 i ++ gridDots rest (i + 1)

/-- The validity invariant of driver-reachable boards with the standard
composition: 10 in-bounds pieces, pairwise disjoint, accepted by is_valid
(18 distinct occupied cells), a grid that is the from-scratch reconstruction
of the piece list, and a tracked empty list that is exactly the two empty
cells of that grid. -/
structure GoodBoard (b : Board) : Prop where
  len10 : b.pieces.length = 10
  ib : ∀ p ∈ b.pieces, inB p
  iv : is_valid b.pieces = true
  pw : PW b.pieces
  grd : buildGrid b.pieces = some b.grid
  emp : b.empty.toFinset = emptyF b.grid
  elen : b.empty.length = 2
  edup : b.empty.Nodup

def c9acts : List State := (get_actions rootC4 [c4board.grid]).getD []

def c9st : State := c9acts.getD 0 default

/-- A well-formed 5-row, 4-column grid. -/
def dims (g : Grid) : Prop := g.length = 5 ∧ ∀ row ∈ g, row.length = 4

/-- The coordinate translation each direction branch applies. -/
def dirDelta : Dir → Int × Int
  | .down => (0, -1)
  | .up => (0, 1)
  | .right => (-1, 0)
  | .left => (1, 0)

/-- The direction whose coordinate translation undoes d's. -/
def oppDir : Dir → Dir
  | .down => .up
  | .up => .down
  | .right => .left
  | .left => .right

def c7piece : Piece := hP 1 3

def c7nb : Board :=
  match move_piece c4board c7piece Dir.up with
  | MoveRes.moved nb => nb
  | _ => ⟨[], [], []⟩

/-! ### Cardinality of the positions set versus pairwise disjointness -/

theorem foldl_union_eq (l : List Piece) (s : Finset Cell) :
    l.foldl (fun t p => t ∪ fpF p) s = s ∪ positions l := by
  induction l generalizing s with
  | nil => simp [positions]
  | cons p t ih =>
    simp only [positions, List.foldl_cons]
    rw [ih, ih (∅ ∪ fpF p)]
    ext c
    simp only [Finset.mem_union, Finset.not_mem_empty, false_or]
    tauto

theorem positions_cons (p : Piece) (l : List Piece) :
    positions (p :: l) = fpF p ∪ positions l := by
  have h := foldl_union_eq l (∅ ∪ fpF p)
  simp only [positions, List.foldl_cons] at *
  rw [h]
  simp

theorem mem_positions {c : Cell} {l : List Piece} :
    c ∈ positions l ↔ ∃ p ∈ l, c ∈ footprint p := by
  induction l with
  | nil => simp [positions]
  | cons p t ih =>
    rw [positions_cons]
    simp only [Finset.mem_union, List.mem_cons, ih, fpF, List.mem_toFinset]
    constructor
    · rintro (h | ⟨q, hq, hc⟩)
      · exact ⟨p, Or.inl rfl, h⟩
      · exact ⟨q, Or.inr hq, hc⟩
    · rintro ⟨q, (rfl | hq), hc⟩
      · exact Or.inl hc
      · exact Or.inr ⟨q, hq, hc⟩

theorem positions_card_le (l : List Piece) : (positions l).card ≤ sumFp l := by
  induction l with
  | nil => simp [positions, sumFp]
  | cons p t ih =>
    rw [positions_cons]
    calc (fpF p ∪ positions t).card ≤ (fpF p).card + (positions t).card :=
          Finset.card_union_le _ _
      _ ≤ (fpF p).card + sumFp t := by omega
      _ = sumFp (p :: t) := by simp [sumFp]

theorem positions_card_of_PW {l : List Piece} (h : PW l) :
    (positions l).card = sumFp l := by
  induction l with
  | nil => simp [positions, sumFp]
  | cons p t ih =>
    have h' := List.pairwise_cons.mp h
    have hdisj : Disjoint (fpF p) (positions t) := by
      rw [Finset.disjoint_left]
      intro c hc hc2
      rw [mem_positions] at hc2
      obtain ⟨q, hq, hcq⟩ := hc2
      exact h'.1 q hq c (by simpa [fpF] using hc) hcq
    rw [positions_cons, Finset.card_union_of_disjoint hdisj, ih h'.2]
    simp [sumFp]

theorem PW_of_positions_card {l : List Piece} (h : (positions l).card = sumFp l) :
    PW l := by
  induction l with
  | nil => exact List.Pairwise.nil
  | cons p t ih =>
    rw [positions_cons] at h
    have hle := positions_card_le t
    have hsum : sumFp (p :: t) = (fpF p).card + sumFp t := by simp [sumFp]
    have hui := Finset.card_union_add_card_inter (fpF p) (positions t)
    have hub := Finset.card_union_le (fpF p) (positions t)
    have hinter : (fpF p ∩ positions t).card = 0 := by omega
    have hcardt : (positions t).card = sumFp t := by omega
    rw [Finset.card_eq_zero] at hinter
    refine List.pairwise_cons.mpr ⟨?_, ih hcardt⟩
    intro q hq c hcp hcq
    have hc1 : c ∈ fpF p := by simpa [fpF] using hcp
    have hc2 : c ∈ positions t := mem_positions.mpr ⟨q, hq, hcq⟩
    have : c ∈ fpF p ∩ positions t := Finset.mem_inter.mpr ⟨hc1, hc2⟩
    simp [hinter] at this

theorem footprint_nodup (p : Piece) : (footprint p).Nodup := by
  unfold footprint
  repeat' split
  all_goals simp [Prod.ext_iff]

theorem fpF_card (p : Piece) : (fpF p).card = (footprint p).length := by
  rw [fpF, List.toFinset_card_of_nodup (footprint_nodup p)]

theorem nGoal_cons (p : Piece) (t : List Piece) :
    nGoal (p :: t) = nGoal t + (if p.is_goal then 1 else 0) := by
  simp [nGoal, List.countP_cons]

theorem nDouble_cons (p : Piece) (t : List Piece) :
    nDouble (p :: t) = nDouble t +
      (if (!p.is_goal && !p.is_single &&
          (p.orientation == some 'h' || p.orientation == some 'v')) then 1 else 0) := by
  simp [nDouble, List.countP_cons]

theorem sumFp_comp (l : List Piece) (h : ∀ p ∈ l, realPiece p) :
    sumFp l = l.length + 3 * nGoal l + nDouble l := by
  induction l with
  | nil => simp [sumFp, nGoal, nDouble]
  | cons p t ih =>
    have hp := h p (List.mem_cons_self p t)
    have ht := ih (fun q hq => h q (List.mem_cons_of_mem p hq))
    have hsum : sumFp (p :: t) = (footprint p).length + sumFp t := by
      simp [sumFp, fpF_card]
    rw [hsum, nGoal_cons, nDouble_cons, ht, List.length_cons]
    unfold realPiece at hp
    unfold footprint
    rcases hp with ⟨hg, hg2, hg3⟩ | ⟨h1, h2, h0⟩ | ⟨h1, h2, h3 | h3⟩ <;>
      simp [*] <;> omega

/-! ### C10: what is_valid actually decides -/

/-- C10 counterexample: `is_valid` accepts a piece list whose footprints are
not pairwise disjoint (three 2×2 pieces with one shared cell give 11
distinct cells = 3 + 8), so "is_valid = True iff pairwise disjoint and
total footprint count = pieces + 8" fails in the only-if direction. -/
theorem C10_counterexample : is_valid c10pieces = true ∧ ¬ PW c10pieces := by
  constructor
  · decide
  · decide

/-- C10 (amended): `is_valid` returns true iff the number of distinct
occupied cells equals the number of pieces plus 8.  For pairwise-disjoint
footprints this is equivalent to the total footprint-cell count being
pieces + 8, i.e. (for lists of real pieces) to 3·goals + doubles = 8 —
so every overlap-free list violating that composition is rejected — but
an overlapping list can also satisfy the count and be accepted. -/
theorem C10_is_valid_iff : ∀ pieces : List Piece,
    (is_valid pieces = true ↔ (positions pieces).card = pieces.length + 8) ∧
    (PW pieces → (is_valid pieces = true ↔ sumFp pieces = pieces.length + 8)) ∧
    ((∀ p ∈ pieces, realPiece p) → PW pieces →
      (is_valid pieces = true ↔ 3 * nGoal pieces + nDouble pieces = 8)) := by
  intro pieces
  have hbase : is_valid pieces = true ↔ (positions pieces).card = pieces.length + 8 := by
    simp [is_valid]
  refine ⟨hbase, fun hpw => ?_, fun hreal hpw => ?_⟩
  · rw [hbase, positions_card_of_PW hpw]
  · rw [hbase, positions_card_of_PW hpw, sumFp_comp pieces hreal]
    omega

/-- Witness for C10_is_valid_iff at the concrete standard board. -/
theorem C10_is_valid_iff_witness :
    PW c4pieces ∧
    (is_valid c4pieces = true ↔ sumFp c4pieces = c4pieces.length + 8) ∧
    (is_valid c4pieces = true ↔ 3 * nGoal c4pieces + nDouble c4pieces = 8) :=
  ⟨by decide, (C10_is_valid_iff c4pieces).2.1 (by decide),
    (C10_is_valid_iff c4pieces).2.2 (by decide) (by decide)⟩

/-! ### C3: Board construction never raises InvalidBoardError -/

/-- C3 counterexample: a piece list with three implied empty cells (all in
the last row) constructs a Board successfully — no error of any kind is
raised, in particular no InvalidBoardError. -/
theorem C3_counterexample :
    mkBoard cList3 = some board3 ∧ countDots board3.grid = 3 := by
  constructor
  · decide
  · decide

/-- C3 (amended): Board construction performs no validity check and the
code defines no InvalidBoardError.  A list with three empty cells either
constructs successfully (when no '.' occurs in a row after the row of the
second '.') or dies with an uncaught IndexError from the two-slot
empty-cell bookkeeping; an overlapping list with exactly two empty cells
constructs successfully as well. -/
theorem C3_amended :
    (mkBoard cList3 = some board3 ∧ countDots board3.grid = 3) ∧
    mkBoard cListIdx = none ∧
    (mkBoard cListOv = some boardOv ∧ ¬ PW cListOv) := by
  refine ⟨⟨by decide, by decide⟩, by decide, by decide, by decide⟩

/-! ### C5: A* on the lone-goal-piece scenario -/

/-- C5 counterexample: running A* on the Scenario-1 input crashes (the
Board constructor's empty-cell scan raises IndexError on this 14-empty-cell
board), so A* does not report depth 3. -/
theorem C5_counterexample : astarFromPieces c5pieces 100 = Outcome.crash := rfl

/-- C5 (amended): for every fuel bound, running A* on a lone goal piece at
(1,0) fails during initial Board construction (modelled as Outcome.crash)
instead of reporting depth 3 with the goal piece at the target corner. -/
theorem C5_amended : ∀ fuel : Nat, astarFromPieces c5pieces fuel = Outcome.crash :=
  fun _ => rfl

/-! ### C8: determinism of the A* driver -/

/-- C8: the embedded A* driver is a pure function of the initial piece list
and fuel — heap pushes/pops and the direction order are deterministic and
state ids are the grids themselves — so two runs on identical piece lists
return the identical outcome, including the reported depth and the returned
board sequence. -/
theorem C8_determinism :
    ∀ (p1 p2 : List Piece) (fuel : Nat), p1 = p2 →
      astarFromPieces p1 fuel = astarFromPieces p2 fuel := by
  intro p1 p2 fuel h
  rw [h]

/-- Witness for C8_determinism on the concrete standard board. -/
theorem C8_determinism_witness :
    c4pieces = c4pieces ∧
      astarFromPieces c4pieces 5 = astarFromPieces c4pieces 5 :=
  ⟨rfl, C8_determinism c4pieces c4pieces 5 rfl⟩

theorem lc_inner_eq (g : Grid) (r : Int) :
    ∀ (cols : List Int) (acc v : Int),
      cols.foldlM (fun acc2 col => do
        let c ← getCell g r col
        pure (if c ≠ '.' then acc2 + 1 else acc2)) acc = some v →
      v = acc + (countOccPy g (cols.map (fun c => (r, c))) : Int) := by
  intro cols
  induction cols with
  | nil =>
    intro acc v h
    have h' : acc = v := Option.some.inj h
    simp [countOccPy, h']
  | cons col rest ih =>
    intro acc v h
    rw [List.foldlM_cons] at h
    rcases hc : getCell g r col with _ | c
    · rw [hc] at h
      exact Option.noConfusion (show (none : Option Int) = some v from h)
    · rw [hc] at h
      have h' : rest.foldlM (fun acc2 col => do
          let c ← getCell g r col
          pure (if c ≠ '.' then acc2 + 1 else acc2))
          (if c ≠ '.' then acc + 1 else acc) = some v := h
      have hrec := ih _ v h'
      have hcell : cellPy g r col = c := by simp [cellPy, hc]
      simp only [List.map_cons, countOccPy, List.countP_cons] at hrec ⊢
      by_cases hdot : c = '.'
      · simp only [hdot, hcell] at hrec ⊢
        simp at hrec ⊢
        omega
      · simp only [hcell] at hrec ⊢
        simp [hdot] at hrec ⊢
        omega

theorem lc_inner_col_eq (g : Grid) (col : Int) :
    ∀ (rows : List Int) (acc v : Int),
      rows.foldlM (fun acc2 r => do
        let c ← getCell g r col
        pure (if c ≠ '.' then acc2 + 1 else acc2)) acc = some v →
      v = acc + (countOccPy g (rows.map (fun r => (r, col))) : Int) := by
  intro rows
  induction rows with
  | nil =>
    intro acc v h
    have h' : acc = v := Option.some.inj h
    simp [countOccPy, h']
  | cons r rest ih =>
    intro acc v h
    rw [List.foldlM_cons] at h
    rcases hc : getCell g r col with _ | c
    · rw [hc] at h
      exact Option.noConfusion (show (none : Option Int) = some v from h)
    · rw [hc] at h
      have h' : rest.foldlM (fun acc2 r => do
          let c ← getCell g r col
          pure (if c ≠ '.' then acc2 + 1 else acc2))
          (if c ≠ '.' then acc + 1 else acc) = some v := h
      have hrec := ih _ v h'
      have hcell : cellPy g r col = c := by simp [cellPy, hc]
      simp only [List.map_cons, countOccPy, List.countP_cons] at hrec ⊢
      by_cases hdot : c = '.'
      · simp only [hdot, hcell] at hrec ⊢
        simp at hrec ⊢
        omega
      · simp only [hcell] at hrec ⊢
        simp [hdot] at hrec ⊢
        omega

theorem lc_outer_row_eq (g : Grid) (x : Int) :
    ∀ (rows : List Int) (acc v : Int),
      rows.foldlM (fun acc2 r => (intRange x (x + 2)).foldlM (fun acc3 col => do
        let c ← getCell g r col
        pure (if c ≠ '.' then acc3 + 1 else acc3)) acc2) acc = some v →
      v = acc + (countOccPy g (rows.flatMap
        (fun r => (intRange x (x + 2)).map (fun c => (r, c)))) : Int) := by
  intro rows
  induction rows with
  | nil =>
    intro acc v h
    have h' : acc = v := Option.some.inj h
    simp [countOccPy, h']
  | cons r rest ih =>
    intro acc v h
    rw [List.foldlM_cons] at h
    rcases hin : (intRange x (x + 2)).foldlM (fun acc3 col => do
        let c ← getCell g r col
        pure (if c ≠ '.' then acc3 + 1 else acc3)) acc with _ | acc2
    · rw [hin] at h
      exact Option.noConfusion (show (none : Option Int) = some v from h)
    · rw [hin] at h
      have h' : rest.foldlM (fun acc2 r => (intRange x (x + 2)).foldlM (fun acc3 col => do
          let c ← getCell g r col
          pure (if c ≠ '.' then acc3 + 1 else acc3)) acc2) acc2 = some v := h
      have h1 := lc_inner_eq g r (intRange x (x + 2)) acc acc2 hin
      have h2 := ih acc2 v h'
      simp only [List.flatMap_cons, countOccPy, List.countP_append] at h1 h2 ⊢
      omega

theorem lc_outer_col_eq (g : Grid) (y : Int) :
    ∀ (cols : List Int) (acc v : Int),
      cols.foldlM (fun acc2 col => (intRange y (y + 2)).foldlM (fun acc3 r => do
        let c ← getCell g r col
        pure (if c ≠ '.' then acc3 + 1 else acc3)) acc2) acc = some v →
      v = acc + (countOccPy g (cols.flatMap
        (fun col => (intRange y (y + 2)).map (fun r => (r, col)))) : Int) := by
  intro cols
  induction cols with
  | nil =>
    intro acc v h
    have h' : acc = v := Option.some.inj h
    simp [countOccPy, h']
  | cons col rest ih =>
    intro acc v h
    rw [List.foldlM_cons] at h
    rcases hin : (intRange y (y + 2)).foldlM (fun acc3 r => do
        let c ← getCell g r col
        pure (if c ≠ '.' then acc3 + 1 else acc3)) acc with _ | acc2
    · rw [hin] at h
      exact Option.noConfusion (show (none : Option Int) = some v from h)
    · rw [hin] at h
      have h' : rest.foldlM (fun acc2 col => (intRange y (y + 2)).foldlM (fun acc3 r => do
          let c ← getCell g r col
          pure (if c ≠ '.' then acc3 + 1 else acc3)) acc2) acc2 = some v := h
      have h1 := lc_inner_col_eq g col (intRange y (y + 2)) acc acc2 hin
      have h2 := ih acc2 v h'
      simp only [List.flatMap_cons, countOccPy, List.countP_append] at h1 h2 ⊢
      omega

theorem lcRowSum_eq (b : Board) (p : Piece) (rowC : Int)
    (h : lcRowSum b p = some rowC) :
    rowC = if p.coord_y < 3 then (countOccPy b.grid (rowBandCells p) : Int) else 0 := by
  unfold lcRowSum at h
  by_cases hy : p.coord_y < 3
  · rw [if_pos hy] at h
    rw [if_pos hy]
    have := lc_outer_row_eq b.grid p.coord_x (intRange (p.coord_y + 2) 4) 0 rowC h
    simpa [rowBandCells] using this
  · rw [if_neg hy] at h
    rw [if_neg hy]
    exact (Option.some.inj h).symm

theorem lcColSum_eq (b : Board) (p : Piece) (colC : Int)
    (h : lcColSum b p = some colC) :
    colC = if p.coord_x < 1 then (countOccPy b.grid (colBandCells p) : Int) else 0 := by
  unfold lcColSum at h
  by_cases hx : p.coord_x < 1
  · rw [if_pos hx] at h
    rw [if_pos hx]
    have := lc_outer_col_eq b.grid p.coord_y (intRange (p.coord_x + 2) 2) 0 colC h
    simpa [colBandCells] using this
  · rw [if_neg hx] at h
    rw [if_neg hx]
    exact (Option.some.inj h).symm

theorem linear_conflict_eq (b : Board) (lc : Int)
    (h : linear_conflict b = some lc) : lc = 2 * codeConflict b := by
  unfold linear_conflict at h
  rcases hfind : b.pieces.find? (fun p => p.is_goal) with _ | p <;>
    simp only [hfind] at h
  · simp only [codeConflict, hfind]
    have := Option.some.inj h
    omega
  · rcases hrow : lcRowSum b p with _ | rowC
    · rw [hrow] at h
      exact Option.noConfusion (show (none : Option Int) = some lc from h)
    · rw [hrow] at h
      rcases hcol : lcColSum b p with _ | colC
      · rw [hcol] at h
        exact Option.noConfusion (show (none : Option Int) = some lc from h)
      · rw [hcol] at h
        have h' : (rowC + colC) * 2 = lc := Option.some.inj h
        have h1 := lcRowSum_eq b p rowC hrow
        have h2 := lcColSum_eq b p colC hcol
        simp only [codeConflict, hfind]
        rw [← h', h1, h2]
        ring

theorem codeConflict_nonneg (b : Board) : 0 ≤ codeConflict b := by
  unfold codeConflict
  rcases hfind : b.pieces.find? (fun p => p.is_goal) with _ | p <;>
    simp only [hfind]
  · exact le_refl 0
  · have h1 : (0 : Int) ≤ if p.coord_y < 3 then
        (countOccPy b.grid (rowBandCells p) : Int) else 0 := by positivity
    have h2 : (0 : Int) ≤ if p.coord_x < 1 then
        (countOccPy b.grid (colBandCells p) : Int) else 0 := by positivity
    omega

theorem heuristic_nonneg (b : Board) : 0 ≤ b.heuristic := by
  unfold Board.heuristic
  rcases hfind : b.pieces.find? (fun p => p.is_goal) with _ | p <;>
    simp only [hfind]
  · exact le_refl 0
  · positivity

theorem heuristicT_eq (b : Board) (h : Int) (hh : heuristicT b = some h) :
    h = b.heuristic + 2 * codeConflict b := by
  unfold heuristicT at hh
  rcases hlc : linear_conflict b with _ | lc <;> rw [hlc] at hh
  · exact Option.noConfusion (show (none : Option Int) = some h from hh)
  · have h' : lc + b.heuristic = h := Option.some.inj hh
    have := linear_conflict_eq b lc hlc
    omega

theorem codeConflict_eq_zero (b : Board) (hb : b.heuristic = 0) :
    codeConflict b = 0 := by
  unfold Board.heuristic at hb
  unfold codeConflict
  rcases hfind : b.pieces.find? (fun p => p.is_goal) with _ | p <;>
    simp only [hfind] at hb ⊢
  have ha1 := abs_nonneg (p.coord_x - 1)
  have ha2 := abs_nonneg (p.coord_y - 3)
  have hx : |p.coord_x - 1| = 0 := by omega
  have hy : |p.coord_y - 3| = 0 := by omega
  rw [abs_eq_zero] at hx hy
  have hx' : p.coord_x = 1 := by omega
  have hy' : p.coord_y = 3 := by omega
  rw [hx', hy']
  norm_num

/-! ### C2: the goal test -/

/-- C2: Board.heuristic is the Manhattan distance from the first goal
piece's top-left corner to (1,3), zero iff that corner is (1,3); the A*
total heuristic is zero iff the Manhattan term is; and each driver, when
the popped state tests zero, returns Solved with exactly that state's depth
and path, before any successor generation. -/
theorem C2_goal_test :
    (∀ (b : Board) (p : Piece), b.pieces.find? (fun q => q.is_goal) = some p →
      b.heuristic = |p.coord_x - 1| + |p.coord_y - 3| ∧
        (b.heuristic = 0 ↔ p.coord_x = 1 ∧ p.coord_y = 3)) ∧
    (∀ (b : Board) (h : Int), heuristicT b = some h → (h = 0 ↔ b.heuristic = 0)) ∧
    (∀ (fuel : Nat) (frontier : List State) (visited : List Grid)
        (cur : State) (rest : List State),
      heappop frontier = some (cur, rest) → heuristicT cur.board = some 0 →
      astarLoop (fuel + 1) frontier visited = Outcome.solved cur.depth cur.path) ∧
    (∀ (fuel : Nat) (frontier : List State) (visited : List Grid) (cur : State),
      frontier.getLast? = some cur → cur.board.heuristic = 0 →
      dfsLoop (fuel + 1) frontier visited = Outcome.solved cur.depth cur.path) := by
  refine ⟨?_, ?_, ?_, ?_⟩
  · intro b p hfind
    have hbh : b.heuristic = |p.coord_x - 1| + |p.coord_y - 3| := by
      unfold Board.heuristic
      simp only [hfind]
    have h1 := abs_nonneg (p.coord_x - 1)
    have h2 := abs_nonneg (p.coord_y - 3)
    refine ⟨hbh, ?_, ?_⟩
    · intro h0
      rw [hbh] at h0
      have hx : |p.coord_x - 1| = 0 := by omega
      have hy : |p.coord_y - 3| = 0 := by omega
      rw [abs_eq_zero] at hx hy
      constructor <;> omega
    · intro hxy
      rw [hbh, hxy.1, hxy.2]
      norm_num
  · intro b h hh
    have he := heuristicT_eq b h hh
    have hn := codeConflict_nonneg b
    have hb := heuristic_nonneg b
    constructor
    · intro h0
      omega
    · intro hb0
      have := codeConflict_eq_zero b hb0
      omega
  · intro fuel frontier visited cur rest hpop hheur
    simp [astarLoop, hpop, hheur]
  · intro fuel frontier visited cur hlast hheur
    simp [dfsLoop, hlast, hheur]

/-- Witness for C2_goal_test on a solved concrete board. -/
theorem C2_goal_test_witness :
    bW.pieces.find? (fun q => q.is_goal) = some (goalP 1 3) ∧
    (bW.heuristic = |(1 : Int) - 1| + |(3 : Int) - 3| ∧
      (bW.heuristic = 0 ↔ (1 : Int) = 1 ∧ (3 : Int) = 3)) ∧
    ((0 : Int) = 0 ↔ bW.heuristic = 0) ∧
    astarLoop 1 [stW] [] = Outcome.solved stW.depth stW.path ∧
    dfsLoop 1 [stW] [] = Outcome.solved stW.depth stW.path :=
  ⟨rfl, C2_goal_test.1 bW (goalP 1 3) rfl, C2_goal_test.2.1 bW 0 (by decide),
    C2_goal_test.2.2.1 0 [stW] [] stW [] rfl (by decide),
    C2_goal_test.2.2.2 0 [stW] [] stW rfl (by decide)⟩

/-! ### C4: the priority formula -/

/-- C4 counterexample: on the standard board c4board (goal at (1,0), a
horizontal piece on target-footprint cells (1,3)-(2,3)), the A* root State
is created with f = 11 = Manhattan 3 + 2·4, but the claim's
strictly-between penalty (target footprint excluded) gives
g + h = 0 + 3 + 2·2 = 7: the code's row scan includes target row 3. -/
theorem C4_counterexample :
    heuristicT c4board = some 11 ∧
    c4board.heuristic + 2 * specConflict c4board = 7 ∧
    astarInit c4board = some ([State.mk c4board 11 0 none], [c4board.grid]) := by
  refine ⟨by decide, by decide, rfl⟩

/-- C4 (amended): every State the A* driver creates has f = g + h with
g its depth and h = heuristicT = Manhattan + 2 × codeConflict, where
codeConflict counts occupied cells in rows coord_y + 2 .. 3 over the goal
piece's current columns (plus the always-empty column band cols
coord_x + 2 .. 1 over its rows) — i.e. the row scan runs one row into the
target footprint instead of stopping strictly before it. -/
theorem C4_f_formula :
    (∀ (b : Board) (lc : Int), linear_conflict b = some lc →
      lc = 2 * codeConflict b) ∧
    (∀ (b : Board) (h : Int), heuristicT b = some h →
      h = b.heuristic + 2 * codeConflict b) ∧
    (∀ (cur : State) (piece : Piece) (d : Dir) (st : State),
      astar_move cur piece d = StRes.made st →
      st.depth = cur.depth + 1 ∧
        ∃ h, heuristicT st.board = some h ∧ st.f = (st.depth : Int) + h) ∧
    (∀ (b : Board) (fv : List State × List Grid), astarInit b = some fv →
      ∃ h, heuristicT b = some h ∧ fv.1 = [State.mk b h 0 none]) := by
  refine ⟨fun b lc => linear_conflict_eq b lc, fun b h => heuristicT_eq b h, ?_, ?_⟩
  · intro cur piece d st hmk
    unfold astar_move at hmk
    rcases hmv : move_piece cur.board piece d with _ | _ | nb <;> rw [hmv] at hmk
    · exact StRes.noConfusion hmk
    · exact StRes.noConfusion hmk
    · have hmk2 : (match heuristicT nb with
        | none => StRes.crash
        | some h =>
          StRes.made (State.mk nb ((cur.depth + 1 : Int) + h) (cur.depth + 1)
            (some cur))) = StRes.made st := hmk
      rcases hh : heuristicT nb with _ | h <;> rw [hh] at hmk2
      · exact StRes.noConfusion hmk2
      · have hst := (StRes.made.injEq _ _).mp hmk2
        rw [← hst]
        refine ⟨rfl, h, hh, ?_⟩
        show (cur.depth + 1 : Int) + h = ((cur.depth + 1 : Nat) : Int) + h
        push_cast
        ring
  · intro b fv hinit
    unfold astarInit at hinit
    rcases hh : heuristicT b with _ | h <;> rw [hh] at hinit
    · exact Option.noConfusion hinit
    · refine ⟨h, rfl, ?_⟩
      have hfv : (heappush [] (State.mk b h 0 none), ([b.grid] : List Grid)) = fv :=
        Option.some.inj hinit
      rw [← hfv]
      rfl

/-- Witness for C4_f_formula on a concrete generated move. -/
theorem C4_f_formula_witness :
    linear_conflict c4board = some 8 ∧
    (8 : Int) = 2 * codeConflict c4board ∧
    heuristicT c4board = some 11 ∧
    (11 : Int) = c4board.heuristic + 2 * codeConflict c4board ∧
    astar_move rootC4 (hP 1 3) Dir.up = StRes.made c4succ ∧
    c4succ.depth = rootC4.depth + 1 ∧
    c4succ.f = (c4succ.depth : Int) + 7 := by
  refine ⟨by decide, C4_f_formula.1 c4board 8 (by decide), by decide,
    C4_f_formula.2.1 c4board 11 (by decide), rfl,
    (C4_f_formula.2.2.1 rootC4 (hP 1 3) Dir.up c4succ rfl).1, ?_⟩
  obtain ⟨h, hh, hf⟩ := (C4_f_formula.2.2.1 rootC4 (hP 1 3) Dir.up c4succ rfl).2
  have h7 : heuristicT c4succ.board = some 7 := by decide
  rw [hh] at h7
  rw [Option.some.inj h7] at hf
  exact hf

/-! ### Inversion of move_piece -/

theorem mkBoard_some {ps : List Piece} {b0 : Board} (h : mkBoard ps = some b0) :
    b0.pieces = ps ∧ buildGrid ps = some b0.grid ∧ scanEmpties b0.grid = some b0.empty := by
  unfold mkBoard at h
  rcases hg : buildGrid ps with _ | g <;> rw [hg] at h
  · exact Option.noConfusion h
  · have h1 : (do
        let es ← scanEmpties g
        pure (⟨ps, g, es⟩ : Board)) = some b0 := h
    rcases hs : scanEmpties g with _ | es <;> rw [hs] at h1
    · exact Option.noConfusion h1
    · have h' : (⟨ps, g, es⟩ : Board) = b0 := Option.some.inj h1
      subst h'
      exact ⟨rfl, rfl, hs⟩

theorem mpFinish_moved_inv {np : List Piece} {es : List Cell} {e2 : Cell} {nb : Board}
    (h : mpFinish np es e2 = MoveRes.moved nb) :
    is_valid np = true ∧ ∃ b0 esF, mkBoard np = some b0 ∧
      fixEmpty b0.grid e2 es = some esF ∧ nb = { b0 with empty := esF } := by
  unfold mpFinish at h
  by_cases hv : is_valid np
  · rw [if_pos hv] at h
    rcases hmk : mkBoard np with _ | b0 <;> rw [hmk] at h
    · exact MoveRes.noConfusion h
    · have h2 : (match fixEmpty b0.grid e2 es with
        | none => MoveRes.crash
        | some esF => MoveRes.moved { b0 with empty := esF }) = MoveRes.moved nb := h
      rcases hfx : fixEmpty b0.grid e2 es with _ | esF <;> rw [hfx] at h2
      · exact MoveRes.noConfusion h2
      · exact ⟨hv, b0, esF, rfl, hfx, ((MoveRes.moved.injEq _ _).mp h2).symm⟩
  · rw [if_neg hv] at h
    exact MoveRes.noConfusion h

theorem mpFinish_moved_fwd {np : List Piece} {es : List Cell} {e2 : Cell} {b0 : Board}
    {esF : List Cell} (hv : is_valid np = true) (hmk : mkBoard np = some b0)
    (hfx : fixEmpty b0.grid e2 es = some esF) :
    mpFinish np es e2 = MoveRes.moved { b0 with empty := esF } := by
  unfold mpFinish
  rw [if_pos hv, hmk]
  show (match fixEmpty b0.grid e2 es with
    | none => MoveRes.crash
    | some esF => MoveRes.moved { b0 with empty := esF }) = _
  rw [hfx]

theorem mpBody_eq (acc : List Piece) (p : Piece) (rest : List Piece) (d : Dir)
    (es : List Cell) :
    mpBody acc p rest d es =
      if guardOf p d then
        (if checkCellOf p d ∈ es then
          mpFinish (acc ++ movedOf p d :: rest)
            ((es.erase (checkCellOf p d)) ++ [nE1Of p d]) (nE2Of p d)
        else mpFinish (acc ++ p :: rest) es (nE2Of p d))
      else MoveRes.noMove := by
  cases d <;>
    simp [mpBody, guardOf, checkCellOf, nE1Of, nE2Of, movedOf]

theorem mpLoop_moved_inv (piece : Piece) (d : Dir) (es : List Cell) :
    ∀ (pieces acc : List Piece) (nb : Board),
      mpLoop piece d es acc pieces = MoveRes.moved nb →
      ∃ pre post, pieces = pre ++ piece :: post ∧ (∀ q ∈ pre, q ≠ piece) ∧
        mpBody (acc ++ pre) piece post d es = MoveRes.moved nb := by
  intro pieces
  induction pieces with
  | nil =>
    intro acc nb h
    exact MoveRes.noConfusion h
  | cons p rest ih =>
    intro acc nb h
    unfold mpLoop at h
    by_cases hp : p = piece
    · rw [if_pos hp] at h
      subst hp
      exact ⟨[], rest, rfl, by simp, by simpa using h⟩
    · rw [if_neg hp] at h
      obtain ⟨pre, post, hsplit, hfree, hbody⟩ := ih (acc ++ [p]) nb h
      refine ⟨p :: pre, post, by simp [hsplit], ?_, ?_⟩
      · intro q hq
        rcases List.mem_cons.mp hq with rfl | hq2
        · exact hp
        · exact hfree q hq2
      · simpa [List.append_assoc] using hbody

theorem mpLoop_fwd (piece : Piece) (d : Dir) (es : List Cell) :
    ∀ (pre : List Piece) (post acc : List Piece), (∀ q ∈ pre, q ≠ piece) →
      mpLoop piece d es acc (pre ++ piece :: post) = mpBody (acc ++ pre) piece post d es := by
  intro pre
  induction pre with
  | nil =>
    intro post acc _
    simp [mpLoop]
  | cons q pre2 ih =>
    intro post acc hfree
    have hq : q ≠ piece := hfree q (List.mem_cons_self q pre2)
    have h2 : ∀ r ∈ pre2, r ≠ piece := fun r hr => hfree r (List.mem_cons_of_mem q hr)
    simp only [List.cons_append, mpLoop, if_neg hq, List.append_eq]
    rw [ih post (acc ++ [q]) h2]
    simp [List.append_assoc]

theorem move_piece_moved_inv {b : Board} {piece : Piece} {d : Dir} {nb : Board}
    (h : move_piece b piece d = MoveRes.moved nb) :
    ∃ pre post, b.pieces = pre ++ piece :: post ∧ (∀ q ∈ pre, q ≠ piece) ∧
      guardOf piece d ∧
      ((checkCellOf piece d ∉ b.empty ∧ is_valid b.pieces = true ∧
        ∃ b0 esF, mkBoard b.pieces = some b0 ∧
          fixEmpty b0.grid (nE2Of piece d) b.empty = some esF ∧
          nb = { b0 with empty := esF }) ∨
       (checkCellOf piece d ∈ b.empty ∧
        is_valid (pre ++ movedOf piece d :: post) = true ∧
        ∃ b0 esF, mkBoard (pre ++ movedOf piece d :: post) = some b0 ∧
          fixEmpty b0.grid (nE2Of piece d)
            ((b.empty.erase (checkCellOf piece d)) ++ [nE1Of piece d]) = some esF ∧
          nb = { b0 with empty := esF })) := by
  unfold move_piece at h
  obtain ⟨pre, post, hsplit, hfree, hbody⟩ := mpLoop_moved_inv piece d b.empty b.pieces [] nb h
  rw [List.nil_append] at hbody
  rw [mpBody_eq] at hbody
  by_cases hg : guardOf piece d
  · rw [if_pos hg] at hbody
    by_cases hc : checkCellOf piece d ∈ b.empty
    · rw [if_pos hc] at hbody
      obtain ⟨hv, b0, esF, hmk, hfx, hnb⟩ := mpFinish_moved_inv hbody
      exact ⟨pre, post, hsplit, hfree, hg, Or.inr ⟨hc, hv, b0, esF, hmk, hfx, hnb⟩⟩
    · rw [if_neg hc] at hbody
      obtain ⟨hv, b0, esF, hmk, hfx, hnb⟩ := mpFinish_moved_inv hbody
      rw [← hsplit] at hv hmk
      exact ⟨pre, post, hsplit, hfree, hg, Or.inl ⟨hc, hv, b0, esF, hmk, hfx, hnb⟩⟩
  · rw [if_neg hg] at hbody
    exact MoveRes.noConfusion hbody

/-! ### Inversion of the successor generators -/

theorem astar_move_made {cur : State} {piece : Piece} {d : Dir} {st : State}
    (h : astar_move cur piece d = StRes.made st) :
    ∃ nb hval, move_piece cur.board piece d = MoveRes.moved nb ∧
      heuristicT nb = some hval ∧
      st = State.mk nb ((cur.depth + 1 : Int) + hval) (cur.depth + 1) (some cur) := by
  unfold astar_move at h
  rcases hmv : move_piece cur.board piece d with _ | _ | nb <;> rw [hmv] at h
  · exact StRes.noConfusion h
  · exact StRes.noConfusion h
  · have h2 : (match heuristicT nb with
      | none => StRes.crash
      | some hv =>
        StRes.made (State.mk nb ((cur.depth + 1 : Int) + hv) (cur.depth + 1)
          (some cur))) = StRes.made st := h
    rcases hh : heuristicT nb with _ | hval <;> rw [hh] at h2
    · exact StRes.noConfusion h2
    · exact ⟨nb, hval, rfl, hh, ((StRes.made.injEq _ _).mp h2).symm⟩

theorem dfs_move_made {cur : State} {piece : Piece} {d : Dir} {st : State}
    (h : dfs_move cur piece d = StRes.made st) :
    ∃ nb, move_piece cur.board piece d = MoveRes.moved nb ∧
      st = State.mk nb 1 (cur.depth + 1) (some cur) := by
  unfold dfs_move at h
  rcases hmv : move_piece cur.board piece d with _ | _ | nb <;> rw [hmv] at h
  · exact StRes.noConfusion h
  · exact StRes.noConfusion h
  · exact ⟨nb, rfl, ((StRes.made.injEq _ _).mp h).symm⟩

theorem gaStep_made {cur : State} {visited : List Grid}
    {pr : Cell × Dir × Int × Int} {st : State}
    (h : gaStep cur visited pr = some (some st)) :
    ∃ piece, get_piece_at cur.board (pr.1.1 + pr.2.2.1) (pr.1.2 + pr.2.2.2) = some piece ∧
      astar_move cur piece pr.2.1 = StRes.made st ∧ st.id ∉ visited := by
  obtain ⟨⟨ex, ey⟩, d, dx, dy⟩ := pr
  unfold gaStep at h
  dsimp only at h
  split at h
  · split at h
    · exact Option.noConfusion h
    · split at h
      · split at h
        · exact Option.noConfusion h
        · split at h
          · exact Option.noConfusion h
          · exact Option.noConfusion (Option.some.inj h)
          · split at h
            · exact Option.noConfusion (Option.some.inj h)
            · have hst := Option.some.inj (Option.some.inj h)
              subst hst
              exact ⟨_, by assumption, by assumption, by assumption⟩
      · exact Option.noConfusion (Option.some.inj h)
  · exact Option.noConfusion (Option.some.inj h)

theorem dfsGaStep_made {cur : State} {visited : List Grid}
    {pr : Cell × Dir × Int × Int} {st : State}
    (h : dfsGaStep cur visited pr = some (some st)) :
    ∃ piece, get_piece_at cur.board (pr.1.1 + pr.2.2.1) (pr.1.2 + pr.2.2.2) = some piece ∧
      dfs_move cur piece pr.2.1 = StRes.made st ∧ st.id ∉ visited := by
  obtain ⟨⟨ex, ey⟩, d, dx, dy⟩ := pr
  unfold dfsGaStep at h
  dsimp only at h
  split at h
  · split at h
    · exact Option.noConfusion h
    · split at h
      · split at h
        · exact Option.noConfusion h
        · split at h
          · exact Option.noConfusion h
          · exact Option.noConfusion (Option.some.inj h)
          · split at h
            · exact Option.noConfusion (Option.some.inj h)
            · have hst := Option.some.inj (Option.some.inj h)
              subst hst
              exact ⟨_, by assumption, by assumption, by assumption⟩
      · exact Option.noConfusion (Option.some.inj h)
  · exact Option.noConfusion (Option.some.inj h)

theorem gaLoop_mem (cur : State) (visited : List Grid) :
    ∀ (prs : List (Cell × Dir × Int × Int)) (acts : List State),
      gaLoop cur visited prs = some acts →
      ∀ st ∈ acts, ∃ pr ∈ prs, gaStep cur visited pr = some (some st) := by
  intro prs
  induction prs with
  | nil =>
    intro acts h st hst
    have h' : ([] : List State) = acts := Option.some.inj h
    rw [← h'] at hst
    exact absurd hst (List.not_mem_nil st)
  | cons pr rest ih =>
    intro acts h st hst
    unfold gaLoop at h
    rcases hstep : gaStep cur visited pr with _ | o <;> rw [hstep] at h
    · exact Option.noConfusion h
    · rcases o with _ | st2
      · obtain ⟨pr2, hpr2, hs2⟩ := ih acts h st hst
        exact ⟨pr2, List.mem_cons_of_mem pr hpr2, hs2⟩
      · rcases hrest : gaLoop cur visited rest with _ | acts2 <;> rw [hrest] at h
        · exact Option.noConfusion h
        · have h' : st2 :: acts2 = acts := Option.some.inj h
          rw [← h'] at hst
          rcases List.mem_cons.mp hst with rfl | hst2
          · exact ⟨pr, List.mem_cons_self pr rest, hstep⟩
          · obtain ⟨pr2, hpr2, hs2⟩ := ih acts2 hrest st hst2
            exact ⟨pr2, List.mem_cons_of_mem pr hpr2, hs2⟩

theorem dfsGaLoop_mem (cur : State) :
    ∀ (prs : List (Cell × Dir × Int × Int)) (visited : List Grid)
      (acts : List State) (visited2 : List Grid),
      dfsGaLoop cur visited prs = some (acts, visited2) →
      ∀ st ∈ acts, ∃ pr ∈ prs, ∃ vis : List Grid, visited ⊆ vis ∧
        dfsGaStep cur vis pr = some (some st) := by
  intro prs
  induction prs with
  | nil =>
    intro visited acts visited2 h st hst
    have h' : (([], visited) : List State × List Grid) = (acts, visited2) :=
      Option.some.inj h
    have h1 : ([] : List State) = acts := congrArg Prod.fst h'
    rw [← h1] at hst
    exact absurd hst (List.not_mem_nil st)
  | cons pr rest ih =>
    intro visited acts visited2 h st hst
    unfold dfsGaLoop at h
    rcases hstep : dfsGaStep cur visited pr with _ | o <;> rw [hstep] at h
    · exact Option.noConfusion h
    · rcases o with _ | st2
      · obtain ⟨pr2, hpr2, vis, hsub, hs2⟩ := ih visited acts visited2 h st hst
        exact ⟨pr2, List.mem_cons_of_mem pr hpr2, vis, hsub, hs2⟩
      · have h2 : Option.map (fun r : List State × List Grid => (st2 :: r.1, r.2))
            (dfsGaLoop cur (st2.id :: visited) rest) = some (acts, visited2) := h
        rcases hrest : dfsGaLoop cur (st2.id :: visited) rest with _ | av <;>
          rw [hrest] at h2
        · exact Option.noConfusion h2
        · have h' : (st2 :: av.1, av.2) = (acts, visited2) := Option.some.inj h2
          have h1 : st2 :: av.1 = acts := congrArg Prod.fst h'
          rw [← h1] at hst
          rcases List.mem_cons.mp hst with rfl | hst2
          · exact ⟨pr, List.mem_cons_self pr rest, visited,
              fun a ha => ha, hstep⟩
          · obtain ⟨pr2, hpr2, vis, hsub, hs2⟩ := ih (st2.id :: visited) av.1 av.2
              (by rw [hrest]) st hst2
            exact ⟨pr2, List.mem_cons_of_mem pr hpr2, vis,
              fun a ha => hsub (List.mem_cons_of_mem st2.id ha), hs2⟩

/-! ### C9: frame property of successor generation -/

theorem movedOf_flags (p : Piece) (d : Dir) :
    (movedOf p d).is_goal = p.is_goal ∧ (movedOf p d).is_single = p.is_single ∧
      (movedOf p d).orientation = p.orientation := by
  cases d <;> simp [movedOf]

theorem movedOf_coord_ne (p : Piece) (d : Dir) :
    ((movedOf p d).coord_x, (movedOf p d).coord_y) ≠ (p.coord_x, p.coord_y) := by
  cases d <;> simp [movedOf, Prod.ext_iff]

/-- Either a move is a null move (the grid is the parent grid) or exactly
one piece of the parent list is replaced by its one-step translate. -/
theorem move_piece_case {b : Board} {piece : Piece} {d : Dir} {nb : Board}
    (hbg : buildGrid b.pieces = some b.grid)
    (h : move_piece b piece d = MoveRes.moved nb) :
    nb.grid = b.grid ∨
    ∃ pre post, b.pieces = pre ++ piece :: post ∧
      nb.pieces = pre ++ movedOf piece d :: post := by
  obtain ⟨pre, post, hsplit, hfree, hg, hcase⟩ := move_piece_moved_inv h
  rcases hcase with ⟨_, _, b0, esF, hmk, _, hnb⟩ | ⟨_, _, b0, esF, hmk, _, hnb⟩
  · left
    obtain ⟨_, hbg0, _⟩ := mkBoard_some hmk
    have hgr : b0.grid = b.grid := Option.some.inj (hbg0.symm.trans hbg)
    rw [hnb]
    exact hgr
  · right
    obtain ⟨hps, _, _⟩ := mkBoard_some hmk
    refine ⟨pre, post, hsplit, ?_⟩
    rw [hnb]
    show b0.pieces = _
    exact hps

theorem mem_getD {α : Type} (l : List α) (n : Nat) (dflt : α) (h : n < l.length) :
    l.getD n dflt ∈ l := by
  induction l generalizing n with
  | nil => simp at h
  | cons a t ih =>
    cases n with
    | zero => simp
    | succ m =>
      have hm := ih m (by simpa using h)
      simp only [List.getD_cons_succ]
      exact List.mem_cons_of_mem a hm

/-- C9: successor generation leaves the popped State's Board unchanged (the
embedding of get_actions is a pure function of cur), and — with the
parent's id in the visited set, as it always is at both drivers' call
sites — every returned successor has parent link cur, depth cur.depth + 1,
and a board built from a copy of the parent's piece list in which exactly
one piece was replaced by a translate: same category flags and orientation,
different position. -/
theorem C9_frame :
    ∀ (cur : State) (visited : List Grid),
      buildGrid cur.board.pieces = some cur.board.grid →
      cur.board.grid ∈ visited →
      (∀ acts, get_actions cur visited = some acts → ∀ st ∈ acts,
        st.parent = some cur ∧ st.depth = cur.depth + 1 ∧
        ∃ pre p post d, cur.board.pieces = pre ++ p :: post ∧
          st.board.pieces = pre ++ movedOf p d :: post ∧
          (movedOf p d).is_goal = p.is_goal ∧
          (movedOf p d).is_single = p.is_single ∧
          (movedOf p d).orientation = p.orientation ∧
          ((movedOf p d).coord_x, (movedOf p d).coord_y) ≠ (p.coord_x, p.coord_y)) ∧
      (∀ acts visited2, dfs_get_actions cur visited = some (acts, visited2) →
        ∀ st ∈ acts,
        st.parent = some cur ∧ st.depth = cur.depth + 1 ∧
        ∃ pre p post d, cur.board.pieces = pre ++ p :: post ∧
          st.board.pieces = pre ++ movedOf p d :: post ∧
          (movedOf p d).is_goal = p.is_goal ∧
          (movedOf p d).is_single = p.is_single ∧
          (movedOf p d).orientation = p.orientation ∧
          ((movedOf p d).coord_x, (movedOf p d).coord_y) ≠ (p.coord_x, p.coord_y)) := by
  intro cur visited hbg hvis
  constructor
  · intro acts hga st hst
    obtain ⟨pr, _, hstep⟩ := gaLoop_mem cur visited (gaPairs cur.board) acts hga st hst
    obtain ⟨piece, hgp, hmv, hnotvis⟩ := gaStep_made hstep
    obtain ⟨nb, hval, hmoved, hh, hstdef⟩ := astar_move_made hmv
    rcases move_piece_case hbg hmoved with hnull | ⟨pre, post, hsplit, hnp⟩
    · exfalso
      apply hnotvis
      rw [hstdef]
      show nb.grid ∈ visited
      rw [hnull]
      exact hvis
    · subst hstdef
      refine ⟨rfl, rfl, pre, piece, post, pr.2.1, hsplit, hnp,
        (movedOf_flags piece pr.2.1).1, (movedOf_flags piece pr.2.1).2.1,
        (movedOf_flags piece pr.2.1).2.2, movedOf_coord_ne piece pr.2.1⟩
  · intro acts visited2 hga st hst
    obtain ⟨pr, _, vis, hsub, hstep⟩ := dfsGaLoop_mem cur (gaPairs cur.board) visited
      acts visited2 hga st hst
    obtain ⟨piece, hgp, hmv, hnotvis⟩ := dfsGaStep_made hstep
    obtain ⟨nb, hmoved, hstdef⟩ := dfs_move_made hmv
    rcases move_piece_case hbg hmoved with hnull | ⟨pre, post, hsplit, hnp⟩
    · exfalso
      apply hnotvis
      rw [hstdef]
      show nb.grid ∈ vis
      rw [hnull]
      exact hsub hvis
    · subst hstdef
      refine ⟨rfl, rfl, pre, piece, post, pr.2.1, hsplit, hnp,
        (movedOf_flags piece pr.2.1).1, (movedOf_flags piece pr.2.1).2.1,
        (movedOf_flags piece pr.2.1).2.2, movedOf_coord_ne piece pr.2.1⟩

/-- Witness for C9_frame on the standard board's root state. -/
theorem C9_frame_witness :
    buildGrid c4board.pieces = some c4board.grid ∧
    c4board.grid ∈ [c4board.grid] ∧
    get_actions rootC4 [c4board.grid] = some c9acts ∧
    c9st ∈ c9acts ∧ c9st.parent = some rootC4 ∧ c9st.depth = rootC4.depth + 1 := by
  have hm : c9st ∈ c9acts := mem_getD c9acts 0 default (by decide)
  have h := (C9_frame rootC4 [c4board.grid] (by decide) (by decide)).1 c9acts rfl c9st hm
  exact ⟨by decide, by decide, rfl, hm, h.1, h.2.1⟩

/-! ### Cell-level grid lemmas -/

theorem pyIdx_in {n : Int} {len : Nat} (h1 : 0 ≤ n) (h2 : n < (len : Int)) :
    pyIdx n len = some n.toNat := by
  unfold pyIdx
  rw [if_pos ⟨h1, h2⟩]

theorem getCell_in {g : Grid} {x y : Int} (hd : dims g)
    (hx : 0 ≤ x) (hx4 : x < 4) (hy : 0 ≤ y) (hy5 : y < 5) :
    getCell g y x = some (cellAt g (x, y)) := by
  obtain ⟨h5, hrows⟩ := hd
  have hyg : y < (g.length : Int) := by rw [h5]; exact_mod_cast hy5
  have hyl : y.toNat < g.length := by omega
  have hrowm : g.getD y.toNat [] ∈ g := by
    rw [List.getD_eq_getElem?_getD, List.getElem?_eq_getElem hyl]
    exact List.getElem_mem hyl
  have hrl : (g.getD y.toNat []).length = 4 := hrows _ hrowm
  unfold getCell
  rw [pyIdx_in hy hyg]
  show (pyIdx x (g.getD y.toNat []).length >>= fun j =>
    pure ((g.getD y.toNat []).getD j '.')) = some (cellAt g (x, y))
  rw [hrl, pyIdx_in hx (by exact_mod_cast hx4)]
  rfl

theorem setCell_in {g : Grid} {x y : Int} {u : Char} (hd : dims g)
    (hx : 0 ≤ x) (hx4 : x < 4) (hy : 0 ≤ y) (hy5 : y < 5) :
    ∃ g', setCell g y x u = some g' ∧ dims g' ∧ cellAt g' (x, y) = u ∧
      ∀ c : Cell, inBCell c → c ≠ (x, y) → cellAt g' c = cellAt g c := by
  obtain ⟨h5, hrows⟩ := hd
  have hyg : y < (g.length : Int) := by rw [h5]; exact_mod_cast hy5
  have hyl : y.toNat < g.length := by omega
  have hrowm : g.getD y.toNat [] ∈ g := by
    rw [List.getD_eq_getElem?_getD, List.getElem?_eq_getElem hyl]
    exact List.getElem_mem hyl
  have hrl : (g.getD y.toNat []).length = 4 := hrows _ hrowm
  have hxl : x.toNat < (g.getD y.toNat []).length := by omega
  refine ⟨g.set y.toNat ((g.getD y.toNat []).set x.toNat u), ?_, ?_, ?_, ?_⟩
  · unfold setCell
    rw [pyIdx_in hy hyg]
    show (pyIdx x (g.getD y.toNat []).length >>= fun j =>
      pure (g.set y.toNat ((g.getD y.toNat []).set j u))) = _
    rw [hrl, pyIdx_in hx (by exact_mod_cast hx4)]
    rfl
  · constructor
    · rw [List.length_set, h5]
    · intro row hrow
      rcases List.mem_or_eq_of_mem_set hrow with hmem | heq
      · exact hrows row hmem
      · rw [heq, List.length_set]
        exact hrl
  · have houter : (g.set y.toNat ((g.getD y.toNat []).set x.toNat u)).getD y.toNat
        ([] : List Char) = (g.getD y.toNat []).set x.toNat u := by
      rw [List.getD_eq_getElem?_getD, List.getElem?_set_self hyl]
      rfl
    show ((g.set y.toNat ((g.getD y.toNat []).set x.toNat u)).getD y.toNat []).getD
      x.toNat '.' = u
    rw [houter, List.getD_eq_getElem?_getD, List.getElem?_set_self hxl]
    rfl
  · rintro ⟨cx, cy⟩ ⟨hcx0, hcx4, hcy0, hcy5⟩ hne
    show ((g.set y.toNat ((g.getD y.toNat []).set x.toNat u)).getD cy.toNat []).getD
      cx.toNat '.' = (g.getD cy.toNat []).getD cx.toNat '.'
    by_cases hcy : cy = y
    · subst hcy
      have hcx : cx ≠ x := by
        intro hc
        exact hne (by rw [hc])
      have houter : (g.set cy.toNat ((g.getD cy.toNat []).set x.toNat u)).getD cy.toNat
          ([] : List Char) = (g.getD cy.toNat []).set x.toNat u := by
        rw [List.getD_eq_getElem?_getD, List.getElem?_set_self hyl]
        rfl
      rw [houter]
      rw [List.getD_eq_getElem?_getD, List.getElem?_set_ne (by omega),
        ← List.getD_eq_getElem?_getD]
    · have houter : (g.set y.toNat ((g.getD y.toNat []).set x.toNat u)).getD cy.toNat
          ([] : List Char) = g.getD cy.toNat [] := by
        rw [List.getD_eq_getElem?_getD, List.getElem?_set_ne (by omega),
          ← List.getD_eq_getElem?_getD]
      rw [houter]

theorem shape_bounds (p : Piece) :
    1 ≤ p.shape.1 ∧ p.shape.1 ≤ 2 ∧ 1 ≤ p.shape.2 ∧ p.shape.2 ≤ 2 := by
  unfold Piece.shape
  repeat' split <;> norm_num

theorem footprint_inB {p : Piece} (hp : inB p) :
    ∀ c ∈ footprint p, inBCell c := by
  intro c hc
  obtain ⟨h1, h2, h3, h4⟩ := hp
  have hsb := shape_bounds p
  unfold footprint at hc
  unfold inBCell
  by_cases hg : p.is_goal
  · have hsh : p.shape = (2, 2) := by simp [Piece.shape, hg]
    rw [hsh] at h2 h4
    simp [hg] at hc
    rcases hc with rfl | rfl | rfl | rfl <;> simp <;> omega
  · by_cases hs : p.is_single <;> simp [hg, hs] at hc
    · rw [hc]
      simp
      omega
    · by_cases hh : p.orientation = some 'h'
      · have hsh : p.shape = (1, 2) := by simp [Piece.shape, hg, hh]
        rw [hsh] at h2 h4
        simp [hh] at hc
        rcases hc with rfl | rfl <;> simp <;> omega
      · by_cases hv : p.orientation = some 'v'
        · have hsh : p.shape = (2, 1) := by simp [Piece.shape, hg, hh, hv]
          rw [hsh] at h2 h4
          simp [hh, hv] at hc
          rcases hc with rfl | rfl <;> simp <;> omega
        · simp [hh, hv] at hc



theorem placePiece_spec {g : Grid} {p : Piece} (hd : dims g) (hp : inB p) :
    ∃ g', placePiece g p = some g' ∧ dims g' ∧
      (∀ c : Cell, inBCell c → c ∈ footprint p → cellAt g' c ≠ '.') ∧
      (∀ c : Cell, inBCell c → c ∉ footprint p → cellAt g' c = cellAt g c) := by
  obtain ⟨hx0, hx2, hy0, hy2⟩ := hp
  have hsb := shape_bounds p
  by_cases hg : p.is_goal
  · have hsh : p.shape = (2, 2) := by simp [Piece.shape, hg]
    rw [hsh] at hx2 hy2
    simp only [Prod.fst, Prod.snd] at hx2 hy2
    have hfp : footprint p = [(p.coord_x, p.coord_y), (p.coord_x + 1, p.coord_y),
        (p.coord_x, p.coord_y + 1), (p.coord_x + 1, p.coord_y + 1)] := by
      unfold footprint
      rw [if_pos hg]
    obtain ⟨g1, hs1, hd1, hc1, ho1⟩ := setCell_in (x := p.coord_x) (y := p.coord_y)
      (u := char_goal) hd hx0 (by omega) hy0 (by omega)
    obtain ⟨g2, hs2, hd2, hc2, ho2⟩ := setCell_in (x := p.coord_x + 1) (y := p.coord_y)
      (u := char_goal) hd1 (by omega) (by omega) hy0 (by omega)
    obtain ⟨g3, hs3, hd3, hc3, ho3⟩ := setCell_in (x := p.coord_x) (y := p.coord_y + 1)
      (u := char_goal) hd2 hx0 (by omega) (by omega) (by omega)
    obtain ⟨g4, hs4, hd4, hc4, ho4⟩ := setCell_in (x := p.coord_x + 1) (y := p.coord_y + 1)
      (u := char_goal) hd3 (by omega) (by omega) (by omega) (by omega)
    refine ⟨g4, ?_, hd4, ?_, ?_⟩
    · unfold placePiece
      rw [if_pos hg, hs1]
      show (do
        let gb ← setCell g1 p.coord_y (p.coord_x + 1) char_goal
        let gc ← setCell gb (p.coord_y + 1) p.coord_x char_goal
        let gd ← setCell gc (p.coord_y + 1) (p.coord_x + 1) char_goal
        pure gd) = some g4
      rw [hs2]
      show (do
        let gc ← setCell g2 (p.coord_y + 1) p.coord_x char_goal
        let gd ← setCell gc (p.coord_y + 1) (p.coord_x + 1) char_goal
        pure gd) = some g4
      rw [hs3]
      show (do
        let gd ← setCell g3 (p.coord_y + 1) (p.coord_x + 1) char_goal
        pure gd) = some g4
      rw [hs4]
      rfl
    · intro c hcin hcf
      rw [hfp] at hcf
      simp only [List.mem_cons, List.not_mem_nil, or_false] at hcf
      rcases hcf with rfl | rfl | rfl | rfl
      · rw [ho4 _ hcin (by simp [Prod.ext_iff] <;> omega),
          ho3 _ hcin (by simp [Prod.ext_iff] <;> omega),
          ho2 _ hcin (by simp [Prod.ext_iff] <;> omega), hc1]
        simp [char_goal]
      · rw [ho4 _ hcin (by simp [Prod.ext_iff] <;> omega),
          ho3 _ hcin (by simp [Prod.ext_iff] <;> omega), hc2]
        simp [char_goal]
      · rw [ho4 _ hcin (by simp [Prod.ext_iff] <;> omega), hc3]
        simp [char_goal]
      · rw [hc4]
        simp [char_goal]
    · intro c hcin hcnf
      rw [hfp] at hcnf
      simp only [List.mem_cons, List.not_mem_nil, or_false, not_or] at hcnf
      obtain ⟨hn1, hn2, hn3, hn4⟩ := hcnf
      rw [ho4 _ hcin hn4, ho3 _ hcin hn3, ho2 _ hcin hn2, ho1 _ hcin hn1]
  · by_cases hs : p.is_single
    · have hfp : footprint p = [(p.coord_x, p.coord_y)] := by
        unfold footprint
        rw [if_neg hg, if_pos hs]
      have hx1 : p.coord_x < 4 := by omega
      have hy1 : p.coord_y < 5 := by omega
      obtain ⟨g1, hs1, hd1, hc1, ho1⟩ := setCell_in (x := p.coord_x) (y := p.coord_y)
        (u := char_single) hd hx0 hx1 hy0 hy1
      refine ⟨g1, ?_, hd1, ?_, ?_⟩
      · unfold placePiece
        rw [if_neg hg, if_pos hs, hs1]
      · intro c hcin hcf
        rw [hfp] at hcf
        simp only [List.mem_cons, List.not_mem_nil, or_false] at hcf
        rw [hcf, hc1]
        simp [char_single]
      · intro c hcin hcnf
        rw [hfp] at hcnf
        simp only [List.mem_cons, List.not_mem_nil, or_false] at hcnf
        exact ho1 _ hcin hcnf
    · by_cases hh : p.orientation = some 'h'
      · have hsh : p.shape = (1, 2) := by simp [Piece.shape, hg, hh]
        rw [hsh] at hx2 hy2
        simp only [Prod.fst, Prod.snd] at hx2 hy2
        have hfp : footprint p = [(p.coord_x, p.coord_y), (p.coord_x + 1, p.coord_y)] := by
          unfold footprint
          rw [if_neg hg, if_neg hs, if_pos hh]
        obtain ⟨g1, hs1, hd1, hc1, ho1⟩ := setCell_in (x := p.coord_x) (y := p.coord_y)
          (u := '<') hd hx0 (by omega) hy0 (by omega)
        obtain ⟨g2, hs2, hd2, hc2, ho2⟩ := setCell_in (x := p.coord_x + 1)
          (y := p.coord_y) (u := '>') hd1 (by omega) (by omega) hy0 (by omega)
        refine ⟨g2, ?_, hd2, ?_, ?_⟩
        · unfold placePiece
          rw [if_neg hg, if_neg hs, if_pos hh, hs1]
          show (do
            let gb ← setCell g1 p.coord_y (p.coord_x + 1) '>'
            pure gb) = some g2
          rw [hs2]
          rfl
        · intro c hcin hcf
          rw [hfp] at hcf
          simp only [List.mem_cons, List.not_mem_nil, or_false] at hcf
          rcases hcf with rfl | rfl
          · rw [ho2 _ hcin (by simp [Prod.ext_iff] <;> omega), hc1]
            simp
          · rw [hc2]
            simp
        · intro c hcin hcnf
          rw [hfp] at hcnf
          simp only [List.mem_cons, List.not_mem_nil, or_false, not_or] at hcnf
          rw [ho2 _ hcin hcnf.2, ho1 _ hcin hcnf.1]
      · by_cases hv : p.orientation = some 'v'
        · have hsh : p.shape = (2, 1) := by simp [Piece.shape, hg, hh, hv]
          rw [hsh] at hx2 hy2
          simp only [Prod.fst, Prod.snd] at hx2 hy2
          have hfp : footprint p = [(p.coord_x, p.coord_y), (p.coord_x, p.coord_y + 1)] := by
            unfold footprint
            rw [if_neg hg, if_neg hs, if_neg hh, if_pos hv]
          obtain ⟨g1, hs1, hd1, hc1, ho1⟩ := setCell_in (x := p.coord_x)
            (y := p.coord_y) (u := '^') hd hx0 (by omega) hy0 (by omega)
          obtain ⟨g2, hs2, hd2, hc2, ho2⟩ := setCell_in (x := p.coord_x)
            (y := p.coord_y + 1) (u := 'v') hd1 hx0 (by omega) (by omega) (by omega)
          refine ⟨g2, ?_, hd2, ?_, ?_⟩
          · unfold placePiece
            rw [if_neg hg, if_neg hs, if_neg hh, if_pos hv, hs1]
            show (do
              let gb ← setCell g1 (p.coord_y + 1) p.coord_x 'v'
              pure gb) = some g2
            rw [hs2]
            rfl
          · intro c hcin hcf
            rw [hfp] at hcf
            simp only [List.mem_cons, List.not_mem_nil, or_false] at hcf
            rcases hcf with rfl | rfl
            · rw [ho2 _ hcin (by simp [Prod.ext_iff] <;> omega), hc1]
              simp
            · rw [hc2]
              simp
          · intro c hcin hcnf
            rw [hfp] at hcnf
            simp only [List.mem_cons, List.not_mem_nil, or_false, not_or] at hcnf
            rw [ho2 _ hcin hcnf.2, ho1 _ hcin hcnf.1]
        · have hfp : footprint p = [] := by
            unfold footprint
            rw [if_neg hg, if_neg hs, if_neg hh, if_neg hv]
          refine ⟨g, ?_, hd, ?_, ?_⟩
          · unfold placePiece
            rw [if_neg hg, if_neg hs, if_neg hh, if_neg hv]
            rfl
          · intro c hcin hcf
            rw [hfp] at hcf
            exact absurd hcf (List.not_mem_nil c)
          · intro c hcin hcnf
            rfl



/-! ### From-scratch grid reconstruction agrees with the positions set -/

theorem emptyGrid_dims : dims emptyGrid := by
  constructor
  · rfl
  · intro row hrow
    rw [List.eq_of_mem_replicate hrow]
    rfl

theorem emptyGrid_dot (c : Cell) : cellAt emptyGrid c = '.' := by
  unfold cellAt emptyGrid
  rw [List.getD_eq_getElem?_getD, List.getD_eq_getElem?_getD, List.getElem?_replicate]
  by_cases hy : c.2.toNat < 5
  · simp only [hy, if_true, Option.getD_some, List.getElem?_replicate]
    by_cases hx : c.1.toNat < 4
    · simp [hx]
    · simp [hx]
  · simp [hy]

theorem buildGrid_go (pieces : List Piece) :
    ∀ (g0 : Grid) (S : Finset Cell), dims g0 → (∀ p ∈ pieces, inB p) →
      (∀ c : Cell, inBCell c → (cellAt g0 c ≠ '.' ↔ c ∈ S)) →
      ∃ g, pieces.foldlM placePiece g0 = some g ∧ dims g ∧
        (∀ c : Cell, inBCell c → (cellAt g c ≠ '.' ↔ c ∈ S ∪ positions pieces)) := by
  induction pieces with
  | nil =>
    intro g0 S hd _ hchar
    refine ⟨g0, rfl, hd, ?_⟩
    intro c hc
    rw [hchar c hc]
    simp [positions]
  | cons p rest ih =>
    intro g0 S hd hib hchar
    obtain ⟨g1, hp1, hd1, hin, hout⟩ := placePiece_spec hd (hib p (List.mem_cons_self p rest))
    obtain ⟨g, hfold, hdg, hcharg⟩ := ih g1 (S ∪ fpF p) hd1
      (fun q hq => hib q (List.mem_cons_of_mem p hq))
      (by
        intro c hc
        by_cases hcf : c ∈ footprint p
        · constructor
          · intro _
            exact Finset.mem_union_right S (by simpa [fpF] using hcf)
          · intro _
            exact hin c hc hcf
        · rw [hout c hc hcf, hchar c hc]
          constructor
          · exact fun hS => Finset.mem_union_left _ hS
          · intro hS
            rcases Finset.mem_union.mp hS with hS1 | hS2
            · exact hS1
            · exact absurd (by simpa [fpF] using hS2) hcf)
    refine ⟨g, ?_, hdg, ?_⟩
    · rw [List.foldlM_cons, hp1]
      exact hfold
    · intro c hc
      rw [hcharg c hc, positions_cons]
      constructor
      · intro hm
        rcases Finset.mem_union.mp hm with h1 | h2
        · rcases Finset.mem_union.mp h1 with h11 | h12
          · exact Finset.mem_union_left _ h11
          · exact Finset.mem_union_right _ (Finset.mem_union_left _ h12)
        · exact Finset.mem_union_right _ (Finset.mem_union_right _ h2)
      · intro hm
        rcases Finset.mem_union.mp hm with h1 | h2
        · exact Finset.mem_union_left _ (Finset.mem_union_left _ h1)
        · rcases Finset.mem_union.mp h2 with h21 | h22
          · exact Finset.mem_union_left _ (Finset.mem_union_right _ h21)
          · exact Finset.mem_union_right _ h22

theorem buildGrid_spec {pieces : List Piece} (h : ∀ p ∈ pieces, inB p) :
    ∃ g, buildGrid pieces = some g ∧ dims g ∧
      (∀ c : Cell, inBCell c → (cellAt g c ≠ '.' ↔ c ∈ positions pieces)) := by
  obtain ⟨g, hfold, hd, hchar⟩ := buildGrid_go pieces emptyGrid ∅ emptyGrid_dims h
    (by
      intro c hc
      simp [emptyGrid_dot c])
  refine ⟨g, hfold, hd, ?_⟩
  intro c hc
  rw [hchar c hc]
  simp

theorem mem_allCellsF {c : Cell} : c ∈ allCellsF ↔ inBCell c := by
  rcases c with ⟨x, y⟩
  simp [allCellsF, Finset.mem_product, Finset.mem_Ico, inBCell]
  tauto

theorem positions_inB {pieces : List Piece} (h : ∀ p ∈ pieces, inB p) :
    ∀ c ∈ positions pieces, inBCell c := by
  intro c hc
  obtain ⟨p, hp, hcf⟩ := mem_positions.mp hc
  exact footprint_inB (h p hp) c hcf

theorem occF_eq_positions {pieces : List Piece} {g : Grid}
    (hb : buildGrid pieces = some g) (h : ∀ p ∈ pieces, inB p) :
    occF g = positions pieces := by
  obtain ⟨g2, hb2, hd2, hchar⟩ := buildGrid_spec h
  have hgg : g2 = g := Option.some.inj (hb2.symm.trans hb)
  subst hgg
  ext c
  simp only [occF, Finset.mem_filter, mem_allCellsF]
  constructor
  · rintro ⟨hcin, hocc⟩
    exact (hchar c hcin).mp hocc
  · intro hc
    have hcin := positions_inB h c hc
    exact ⟨hcin, (hchar c hcin).mpr hc⟩

theorem allCellsF_card : allCellsF.card = 20 := by decide

theorem occ_empty_split (g : Grid) : (emptyF g).card + (occF g).card = 20 := by
  have := Finset.filter_card_add_filter_neg_card_eq_card
    (s := allCellsF) (p := fun c => cellAt g c = '.')
  rw [allCellsF_card] at this
  exact this

/-! ### The standard-board invariant is preserved across generated moves -/

theorem GoodBoard.card18 {b : Board} (hg : GoodBoard b) :
    (positions b.pieces).card = 18 := by
  have hiv := hg.iv
  unfold is_valid at hiv
  rw [beq_iff_eq] at hiv
  rw [hiv, hg.len10]

theorem GoodBoard.sum18 {b : Board} (hg : GoodBoard b) : sumFp b.pieces = 18 := by
  rw [← positions_card_of_PW hg.pw]
  exact hg.card18

theorem footprint_movedOf (p : Piece) (d : Dir) :
    footprint (movedOf p d) = (footprint p).map
      (fun c => (c.1 + (dirDelta d).1, c.2 + (dirDelta d).2)) := by
  cases d <;> by_cases h1 : p.is_goal = true <;> by_cases h2 : p.is_single = true <;>
    by_cases h3 : p.orientation = some 'h' <;> by_cases h4 : p.orientation = some 'v' <;>
    simp [footprint, movedOf, dirDelta, h1, h2, h3, h4, Prod.ext_iff] <;> omega

theorem fpF_card_movedOf (p : Piece) (d : Dir) : (fpF (movedOf p d)).card = (fpF p).card := by
  rw [fpF_card, fpF_card, footprint_movedOf, List.length_map]

theorem sumFp_append (l1 l2 : List Piece) : sumFp (l1 ++ l2) = sumFp l1 + sumFp l2 := by
  simp [sumFp]

theorem sumFp_cons (p : Piece) (l : List Piece) :
    sumFp (p :: l) = (fpF p).card + sumFp l := by
  simp [sumFp]

theorem shape_movedOf (p : Piece) (d : Dir) : (movedOf p d).shape = p.shape := by
  cases d <;> simp [movedOf, Piece.shape]

theorem inB_movedOf {p : Piece} {d : Dir} (h : inB p) (hg : guardOf p d) :
    inB (movedOf p d) := by
  obtain ⟨h1, h2, h3, h4⟩ := h
  unfold inB
  rw [shape_movedOf]
  cases d <;> simp only [movedOf, guardOf] at hg ⊢ <;> omega

/-- The invariant facts that hold of every Board move_piece returns, given a
GoodBoard parent. -/
theorem move_piece_invariant {b : Board} {piece : Piece} {d : Dir} {nb : Board}
    (hg : GoodBoard b) (h : move_piece b piece d = MoveRes.moved nb) :
    PW nb.pieces ∧ (occF nb.grid).card + 2 = 20 ∧ is_valid nb.pieces = true ∧
      nb.pieces.length = 10 ∧ (∀ p ∈ nb.pieces, inB p) ∧
      buildGrid nb.pieces = some nb.grid := by
  obtain ⟨pre, post, hsplit, hfree, hgd, hcase⟩ := move_piece_moved_inv h
  have hbase : ∀ np : List Piece, np.length = 10 → (∀ p ∈ np, inB p) →
      is_valid np = true → sumFp np = 18 → ∀ b0 esF, mkBoard np = some b0 →
      nb = { b0 with empty := esF } →
      PW nb.pieces ∧ (occF nb.grid).card + 2 = 20 ∧ is_valid nb.pieces = true ∧
        nb.pieces.length = 10 ∧ (∀ p ∈ nb.pieces, inB p) ∧
        buildGrid nb.pieces = some nb.grid := by
    intro np hlen hib hiv hsum b0 esF hmk hnb
    obtain ⟨hps, hbgr, _⟩ := mkBoard_some hmk
    have hnp : nb.pieces = np := by
      rw [hnb]
      exact hps
    have hngr : nb.grid = b0.grid := by
      rw [hnb]
    have hcard : (positions np).card = 18 := by
      unfold is_valid at hiv
      rw [beq_iff_eq] at hiv
      rw [hiv, hlen]
    have hpw : PW np := PW_of_positions_card (by rw [hcard, hsum])
    have hocc : occF b0.grid = positions np :=
      occF_eq_positions hbgr hib
    refine ⟨by rwa [hnp], ?_, by rwa [hnp], by rwa [hnp], by rwa [hnp], ?_⟩
    · rw [hngr, hocc, hcard]
    · rw [hnp, hngr]
      exact hbgr
  rcases hcase with ⟨_, hiv, b0, esF, hmk, _, hnb⟩ | ⟨_, hiv, b0, esF, hmk, _, hnb⟩
  · exact hbase b.pieces hg.len10 hg.ib hiv hg.sum18 b0 esF hmk hnb
  · have hlen : (pre ++ movedOf piece d :: post).length = 10 := by
      have := hg.len10
      rw [hsplit] at this
      simpa using this
    have hmem : piece ∈ b.pieces := by
      rw [hsplit]
      exact List.mem_append_right _ (List.mem_cons_self _ _)
    have hib : ∀ p ∈ pre ++ movedOf piece d :: post, inB p := by
      intro q hq
      rcases List.mem_append.mp hq with hq1 | hq2
      · refine hg.ib q ?_
        rw [hsplit]
        exact List.mem_append_left _ hq1
      · rcases List.mem_cons.mp hq2 with rfl | hq3
        · exact inB_movedOf (hg.ib piece hmem) hgd
        · refine hg.ib q ?_
          rw [hsplit]
          exact List.mem_append_right _ (List.mem_cons_of_mem _ hq3)
    have hsum : sumFp (pre ++ movedOf piece d :: post) = 18 := by
      have hpar := hg.sum18
      rw [hsplit, sumFp_append, sumFp_cons] at hpar
      rw [sumFp_append, sumFp_cons, fpF_card_movedOf]
      exact hpar
    exact hbase _ hlen hib hiv hsum b0 esF hmk hnb



/-! ### C1: the generated-board invariant -/

theorem goodBoard_c4 : GoodBoard c4board :=
  ⟨by decide, by decide, by decide, by decide, by decide, by decide, by decide,
    by decide⟩

/-- C1: for every popped State whose Board satisfies the reachable-board
invariant, every successor State either driver's get_actions returns wraps a
Board whose piece footprints are pairwise non-intersecting and whose
occupied-cell count plus 2 equals 20; moreover each successor was accepted by
the from-scratch is_valid check on the full candidate piece list and its grid
is the from-scratch reconstruction of that list, not the incremental
empty-cell bookkeeping. -/
theorem C1_successor_invariant (cur : State) (visited : List Grid)
    (hg : GoodBoard cur.board) :
    (∀ acts, get_actions cur visited = some acts → ∀ st ∈ acts,
      PW st.board.pieces ∧ (occF st.board.grid).card + 2 = 20 ∧
      is_valid st.board.pieces = true ∧
      buildGrid st.board.pieces = some st.board.grid) ∧
    (∀ acts visited2, dfs_get_actions cur visited = some (acts, visited2) →
      ∀ st ∈ acts,
      PW st.board.pieces ∧ (occF st.board.grid).card + 2 = 20 ∧
      is_valid st.board.pieces = true ∧
      buildGrid st.board.pieces = some st.board.grid) := by
  constructor
  · intro acts h st hst
    obtain ⟨pr, _, hstep⟩ := gaLoop_mem cur visited (gaPairs cur.board) acts h st hst
    obtain ⟨piece, _, hmade, _⟩ := gaStep_made hstep
    obtain ⟨nb, hval, hmv, _, hsteq⟩ := astar_move_made hmade
    obtain ⟨hpw, hocc, hiv, _, _, hbgr⟩ := move_piece_invariant hg hmv
    rw [hsteq]
    exact ⟨hpw, hocc, hiv, hbgr⟩
  · intro acts visited2 h st hst
    obtain ⟨pr, _, vis, _, hstep⟩ := dfsGaLoop_mem cur (gaPairs cur.board) visited
      acts visited2 h st hst
    obtain ⟨piece, _, hmade, _⟩ := dfsGaStep_made hstep
    obtain ⟨nb, hmv, hsteq⟩ := dfs_move_made hmade
    obtain ⟨hpw, hocc, hiv, _, _, hbgr⟩ := move_piece_invariant hg hmv
    rw [hsteq]
    exact ⟨hpw, hocc, hiv, hbgr⟩

/-- Witness for C1_successor_invariant at the standard board's root state. -/
theorem C1_successor_invariant_witness :
    GoodBoard rootC4.board ∧
    get_actions rootC4 [c4board.grid] = some c9acts ∧ c9st ∈ c9acts ∧
    PW c9st.board.pieces ∧ (occF c9st.board.grid).card + 2 = 20 ∧
    is_valid c9st.board.pieces = true := by
  have hm : c9st ∈ c9acts := mem_getD c9acts 0 default (by decide)
  have h := (C1_successor_invariant rootC4 [c4board.grid] goodBoard_c4).1
    c9acts rfl c9st hm
  exact ⟨goodBoard_c4, rfl, hm, h.1, h.2.1, h.2.2.1⟩



/-! ### Per-category shape/footprint facts for real pieces -/

theorem real_cases (p : Piece) (h : realPiece p) :
    (p.shape = (2, 2) ∧ footprint p = [(p.coord_x, p.coord_y),
      (p.coord_x + 1, p.coord_y), (p.coord_x, p.coord_y + 1),
      (p.coord_x + 1, p.coord_y + 1)]) ∨
    (p.shape = (1, 1) ∧ footprint p = [(p.coord_x, p.coord_y)]) ∨
    (p.shape = (1, 2) ∧ footprint p = [(p.coord_x, p.coord_y),
      (p.coord_x + 1, p.coord_y)]) ∨
    (p.shape = (2, 1) ∧ footprint p = [(p.coord_x, p.coord_y),
      (p.coord_x, p.coord_y + 1)]) := by
  rcases h with ⟨h1, h2, h3⟩ | ⟨h1, h2, h3⟩ | ⟨h1, h2, h3 | h3⟩
  · left
    exact ⟨by simp [Piece.shape, h1], by simp [footprint, h1]⟩
  · right; left
    exact ⟨by simp [Piece.shape, h1, h3], by simp [footprint, h1, h2]⟩
  · right; right; left
    exact ⟨by simp [Piece.shape, h1, h3], by simp [footprint, h1, h2, h3]⟩
  · right; right; right
    refine ⟨by simp [Piece.shape, h1, h3], ?_⟩
    have hne : p.orientation ≠ some 'h' := by
      rw [h3]
      simp
    simp [footprint, h1, h2, h3, hne]

theorem footprint_real_ne_nil {p : Piece} (h : realPiece p) : footprint p ≠ [] := by
  rcases real_cases p h with ⟨_, hf⟩ | ⟨_, hf⟩ | ⟨_, hf⟩ | ⟨_, hf⟩ <;> rw [hf] <;> simp

theorem nE1_mem_footprint {p : Piece} (h : realPiece p) (d : Dir) :
    nE1Of p d ∈ footprint p := by
  rcases real_cases p h with ⟨hs, hf⟩ | ⟨hs, hf⟩ | ⟨hs, hf⟩ | ⟨hs, hf⟩ <;>
    cases d <;> rw [hf] <;> simp [nE1Of, hs, Prod.ext_iff] <;> omega

theorem nE2_mem_footprint {p : Piece} (h : realPiece p) (d : Dir) :
    nE2Of p d ∈ footprint p := by
  rcases real_cases p h with ⟨hs, hf⟩ | ⟨hs, hf⟩ | ⟨hs, hf⟩ | ⟨hs, hf⟩ <;>
    cases d <;> rw [hf] <;> simp [nE2Of, hs, Prod.ext_iff] <;> omega

theorem nE1_not_mem_moved {p : Piece} (h : realPiece p) (d : Dir) :
    nE1Of p d ∉ footprint (movedOf p d) := by
  rcases real_cases p h with ⟨hs, hf⟩ | ⟨hs, hf⟩ | ⟨hs, hf⟩ | ⟨hs, hf⟩ <;>
    cases d <;> rw [footprint_movedOf, hf] <;>
    simp [nE1Of, dirDelta, hs, Prod.ext_iff] <;> omega

/-! ### The opposite move undoes the coordinate change -/

theorem movedOf_inv (p : Piece) (d : Dir) : movedOf (movedOf p d) (oppDir d) = p := by
  rcases p with ⟨g1, s1, x, y, o⟩
  cases d <;> simp [movedOf, oppDir] <;> omega

theorem guardOf_rev {p : Piece} (h : inB p) (d : Dir) :
    guardOf (movedOf p d) (oppDir d) := by
  obtain ⟨h1, h2, h3, h4⟩ := h
  have hs := shape_movedOf p d
  cases d <;> simp only [oppDir, guardOf] <;> (try rw [hs]) <;> simp only [movedOf] <;>
    omega

theorem checkCellOf_rev (p : Piece) (d : Dir) :
    checkCellOf (movedOf p d) (oppDir d) = nE1Of p d := by
  have hs := shape_movedOf p d
  cases d <;> simp only [oppDir, checkCellOf, nE1Of] <;> (try rw [hs]) <;>
    simp only [movedOf] <;> simp [Prod.ext_iff] <;> omega

theorem nE_inB {p : Piece} (h : inB p) (d : Dir) :
    inBCell (nE1Of p d) ∧ inBCell (nE2Of p d) := by
  obtain ⟨h1, h2, h3, h4⟩ := h
  obtain ⟨hs1, hs2, hs3, hs4⟩ := shape_bounds p
  cases d <;> simp only [nE1Of, nE2Of, inBCell] <;> omega



/-! ### The empty-list repair loop keeps free cells and adds only new_empty2 -/

theorem fixStep_mem {g : Grid} {e2 : Cell} :
    ∀ (fuel idx : Nat) (lst l' : List Cell),
      fixStep g e2 fuel idx lst = some l' →
      ∀ x : Cell, x ∈ lst → getCell g x.2 x.1 = some '.' → x ∈ l' := by
  intro fuel
  induction fuel with
  | zero =>
    intro idx lst l' h x hx _
    have h' : lst = l' := Option.some.inj h
    rwa [← h']
  | succ fuel ih =>
    intro idx lst l' h x hx hdot
    unfold fixStep at h
    by_cases hlt : idx < lst.length
    · rw [dif_pos hlt] at h
      have h2 : (match getCell g (lst.get ⟨idx, hlt⟩).2 (lst.get ⟨idx, hlt⟩).1 with
        | none => none
        | some c =>
          if c ≠ '.' then
            fixStep g e2 fuel (idx + 1) ((lst.erase (lst.get ⟨idx, hlt⟩)) ++ [e2])
          else fixStep g e2 fuel (idx + 1) lst) = some l' := h
      rcases hgc : getCell g (lst.get ⟨idx, hlt⟩).2 (lst.get ⟨idx, hlt⟩).1 with _ | c <;>
        rw [hgc] at h2
      · exact Option.noConfusion h2
      · have h3 : (if c ≠ '.' then
            fixStep g e2 fuel (idx + 1) ((lst.erase (lst.get ⟨idx, hlt⟩)) ++ [e2])
          else fixStep g e2 fuel (idx + 1) lst) = some l' := h2
        by_cases hne : c ≠ '.'
        · rw [if_pos hne] at h3
          refine ih _ _ _ h3 x ?_ hdot
          refine List.mem_append_left _ ?_
          have hxne : x ≠ lst.get ⟨idx, hlt⟩ := by
            intro hx2
            rw [hx2] at hdot
            exact hne (Option.some.inj (hgc.symm.trans hdot))
          exact (List.mem_erase_of_ne hxne).mpr hx
        · rw [if_neg hne] at h3
          exact ih _ _ _ h3 x hx hdot
    · rw [dif_neg hlt] at h
      have h' : lst = l' := Option.some.inj h
      rwa [← h']

theorem fixStep_some {g : Grid} {e2 : Cell} (hd : dims g) (he2 : inBCell e2) :
    ∀ (fuel idx : Nat) (lst : List Cell), (∀ x ∈ lst, inBCell x) →
      ∃ l', fixStep g e2 fuel idx lst = some l' ∧ ∀ x ∈ l', x ∈ lst ∨ x = e2 := by
  intro fuel
  induction fuel with
  | zero =>
    intro idx lst _
    exact ⟨lst, rfl, fun x hx => Or.inl hx⟩
  | succ fuel ih =>
    intro idx lst hlb
    by_cases hlt : idx < lst.length
    · have hq : lst.get ⟨idx, hlt⟩ ∈ lst := lst.get_mem idx hlt
      have hqb := hlb _ hq
      obtain ⟨hb1, hb2, hb3, hb4⟩ := hqb
      have hgc : getCell g (lst.get ⟨idx, hlt⟩).2 (lst.get ⟨idx, hlt⟩).1 =
          some (cellAt g ((lst.get ⟨idx, hlt⟩).1, (lst.get ⟨idx, hlt⟩).2)) :=
        getCell_in hd hb1 hb2 hb3 hb4
      by_cases hdot : cellAt g ((lst.get ⟨idx, hlt⟩).1, (lst.get ⟨idx, hlt⟩).2) = '.'
      · obtain ⟨l', hfx, hsub⟩ := ih (idx + 1) lst hlb
        refine ⟨l', ?_, hsub⟩
        unfold fixStep
        rw [dif_pos hlt]
        show (match getCell g (lst.get ⟨idx, hlt⟩).2 (lst.get ⟨idx, hlt⟩).1 with
          | none => none
          | some c =>
            if c ≠ '.' then
              fixStep g e2 fuel (idx + 1) ((lst.erase (lst.get ⟨idx, hlt⟩)) ++ [e2])
            else fixStep g e2 fuel (idx + 1) lst) = some l'
        rw [hgc]
        show (if cellAt g ((lst.get ⟨idx, hlt⟩).1, (lst.get ⟨idx, hlt⟩).2) ≠ '.' then
            fixStep g e2 fuel (idx + 1) ((lst.erase (lst.get ⟨idx, hlt⟩)) ++ [e2])
          else fixStep g e2 fuel (idx + 1) lst) = some l'
        rw [if_neg (fun hcon => hcon hdot)]
        exact hfx
      · have hlb2 : ∀ x ∈ (lst.erase (lst.get ⟨idx, hlt⟩)) ++ [e2], inBCell x := by
          intro x hx
          rcases List.mem_append.mp hx with hx1 | hx2
          · exact hlb x (List.mem_of_mem_erase hx1)
          · rw [List.mem_singleton.mp hx2]
            exact he2
        obtain ⟨l', hfx, hsub⟩ := ih (idx + 1) _ hlb2
        refine ⟨l', ?_, ?_⟩
        · unfold fixStep
          rw [dif_pos hlt]
          show (match getCell g (lst.get ⟨idx, hlt⟩).2 (lst.get ⟨idx, hlt⟩).1 with
            | none => none
            | some c =>
              if c ≠ '.' then
                fixStep g e2 fuel (idx + 1) ((lst.erase (lst.get ⟨idx, hlt⟩)) ++ [e2])
              else fixStep g e2 fuel (idx + 1) lst) = some l'
          rw [hgc]
          show (if cellAt g ((lst.get ⟨idx, hlt⟩).1, (lst.get ⟨idx, hlt⟩).2) ≠ '.' then
              fixStep g e2 fuel (idx + 1) ((lst.erase (lst.get ⟨idx, hlt⟩)) ++ [e2])
            else fixStep g e2 fuel (idx + 1) lst) = some l'
          rw [if_pos hdot]
          exact hfx
        · intro x hx
          rcases hsub x hx with hx1 | hx2
          · rcases List.mem_append.mp hx1 with hx3 | hx4
            · exact Or.inl (List.mem_of_mem_erase hx3)
            · exact Or.inr (List.mem_singleton.mp hx4)
          · exact Or.inr hx2
    · refine ⟨lst, ?_, fun x hx => Or.inl hx⟩
      unfold fixStep
      rw [dif_neg hlt]

theorem fixEmpty_mem {g : Grid} {e2 : Cell} {lst l' : List Cell}
    (h : fixEmpty g e2 lst = some l') {x : Cell} (hx : x ∈ lst)
    (hdot : getCell g x.2 x.1 = some '.') : x ∈ l' :=
  fixStep_mem lst.length 0 lst l' h x hx hdot

theorem fixEmpty_some {g : Grid} {e2 : Cell} {lst : List Cell} (hd : dims g)
    (he2 : inBCell e2) (hlb : ∀ x ∈ lst, inBCell x) :
    ∃ l', fixEmpty g e2 lst = some l' ∧ ∀ x ∈ l', x ∈ lst ∨ x = e2 :=
  fixStep_some hd he2 lst.length 0 lst hlb



/-! ### The empty-space scan of __construct_grid -/

theorem rowDots_fwd : ∀ (row : List Char) (j i : Int) (c : Cell),
    c ∈ rowDots row j i → c.2 = i ∧ ∃ k : Nat, k < row.length ∧ c.1 = j + k ∧
      row.getD k ' ' = '.' := by
  intro row
  induction row with
  | nil =>
    intro j i c hc
    simp [rowDots] at hc
  | cons a rest ih =>
    intro j i c hc
    unfold rowDots at hc
    by_cases ha : a = '.'
    · rw [if_pos ha] at hc
      rcases List.mem_cons.mp hc with rfl | hc2
      · exact ⟨rfl, 0, by simp, by simp, by simpa using ha⟩
      · obtain ⟨h2, k, hk, h1, hget⟩ := ih (j + 1) i c hc2
        refine ⟨h2, k + 1, by simpa using Nat.succ_lt_succ hk, ?_, by simpa using hget⟩
        rw [h1]
        push_cast
        ring
    · rw [if_neg ha] at hc
      obtain ⟨h2, k, hk, h1, hget⟩ := ih (j + 1) i c hc
      refine ⟨h2, k + 1, by simpa using Nat.succ_lt_succ hk, ?_, by simpa using hget⟩
      rw [h1]
      push_cast
      ring

theorem gridDots_fwd : ∀ (rows : List (List Char)) (i : Int) (c : Cell),
    c ∈ gridDots rows i → ∃ m : Nat, m < rows.length ∧ c.2 = i + m ∧
      c ∈ rowDots (rows.getD m []) 0 (i + m) := by
  intro rows
  induction rows with
  | nil =>
    intro i c hc
    simp [gridDots] at hc
  | cons row rest ih =>
    intro i c hc
    unfold gridDots at hc
    rcases List.mem_append.mp hc with h1 | h2
    · refine ⟨0, by simp, ?_, ?_⟩
      · have := (rowDots_fwd row 0 i c h1).1
        simpa using this
      · simpa using h1
    · obtain ⟨m, hm, hc2, hmem⟩ := ih (i + 1) c h2
      refine ⟨m + 1, by simpa using Nat.succ_lt_succ hm, ?_, ?_⟩
      · rw [hc2]
        push_cast
        ring
      · have harg : i + ((m : Int) + 1) = (i + 1) + m := by ring
        simp only [List.getD_cons_succ]
        push_cast
        rw [harg]
        exact hmem

theorem gridDots_sub {g : Grid} (hd : dims g) :
    ∀ c ∈ gridDots g 0, inBCell c ∧ cellAt g c = '.' := by
  obtain ⟨h5, hrows⟩ := hd
  intro c hc
  obtain ⟨m, hm, hc2, hmem⟩ := gridDots_fwd g 0 c hc
  obtain ⟨_, k, hk, hc1, hget⟩ := rowDots_fwd _ 0 (0 + m) c hmem
  have hrowm : g.getD m [] ∈ g := mem_getD g m [] hm
  have hrl : (g.getD m []).length = 4 := hrows _ hrowm
  rw [hrl] at hk
  have hib : inBCell c := by
    unfold inBCell
    rw [hc2] at
      *
    omega
  refine ⟨hib, ?_⟩
  unfold cellAt
  have hym : c.2.toNat = m := by omega
  have hxk : c.1.toNat = k := by omega
  rw [hym, hxk]
  rw [List.getD_eq_getElem (g.getD m []) '.' (by omega),
    ← List.getD_eq_getElem (g.getD m []) ' ' (by omega)]
  exact hget

theorem rowDots_nodup : ∀ (row : List Char) (j i : Int), (rowDots row j i).Nodup := by
  intro row
  induction row with
  | nil =>
    intro j i
    simp [rowDots]
  | cons a rest ih =>
    intro j i
    unfold rowDots
    by_cases ha : a = '.'
    · rw [if_pos ha]
      refine List.Nodup.cons ?_ (ih (j + 1) i)
      intro hmem
      obtain ⟨_, k, _, h1, _⟩ := rowDots_fwd rest (j + 1) i (j, i) hmem
      simp at h1
      omega
    · rw [if_neg ha]
      exact ih (j + 1) i

theorem gridDots_nodup : ∀ (rows : List (List Char)) (i : Int), (gridDots rows i).Nodup := by
  intro rows
  induction rows with
  | nil =>
    intro i
    simp [gridDots]
  | cons row rest ih =>
    intro i
    unfold gridDots
    refine List.Nodup.append (rowDots_nodup row 0 i) (ih (i + 1)) ?_
    intro c hc1 hc2
    have h1 := (rowDots_fwd row 0 i c hc1).1
    obtain ⟨m, _, h2, _⟩ := gridDots_fwd rest (i + 1) c hc2
    omega

theorem gridDots_len_le {b : Board} (hg : GoodBoard b) (hd : dims b.grid) :
    (gridDots b.grid 0).length ≤ 2 := by
  have hcard : (emptyF b.grid).card = 2 := by
    rw [← hg.emp, List.toFinset_card_of_nodup hg.edup, hg.elen]
  have hsub : (gridDots b.grid 0).toFinset ⊆ emptyF b.grid := by
    intro c hc
    rw [List.mem_toFinset] at hc
    obtain ⟨hib, hdot⟩ := gridDots_sub hd c hc
    unfold emptyF
    rw [Finset.mem_filter, mem_allCellsF]
    exact ⟨hib, hdot⟩
  have := Finset.card_le_card hsub
  rw [hcard] at this
  rwa [List.toFinset_card_of_nodup (gridDots_nodup b.grid 0)] at this

theorem scanRowCells_spec : ∀ (row : List Char) (j i : Int) (acc : List Cell),
    acc.length + (rowDots row j i).length ≤ 2 →
    scanRowCells row j i acc = some (acc ++ rowDots row j i) := by
  intro row
  induction row with
  | nil =>
    intro j i acc _
    simp [scanRowCells, rowDots]
  | cons a rest ih =>
    intro j i acc hlen
    by_cases ha : a = '.'
    · have hrd : rowDots (a :: rest) j i = (j, i) :: rowDots rest (j + 1) i := by
        simp only [rowDots]
        rw [if_pos ha]
      rw [hrd] at hlen ⊢
      unfold scanRowCells
      rw [if_pos ha]
      have hne2 : ¬ acc.length = 2 := by
        simp only [List.length_cons] at hlen
        omega
      rw [if_neg hne2]
      show (if (acc ++ [(j, i)]).length = 2 then some (acc ++ [(j, i)])
        else scanRowCells rest (j + 1) i (acc ++ [(j, i)])) =
        some (acc ++ (j, i) :: rowDots rest (j + 1) i)
      by_cases hacc2 : (acc ++ [(j, i)]).length = 2
      · rw [if_pos hacc2]
        have hz : (rowDots rest (j + 1) i).length = 0 := by
          simp only [List.length_cons] at hlen
          simp only [List.length_append, List.length_singleton] at hacc2
          omega
        have hnil : rowDots rest (j + 1) i = [] := List.eq_nil_of_length_eq_zero hz
        rw [hnil]
      · rw [if_neg hacc2]
        rw [ih (j + 1) i (acc ++ [(j, i)]) (by
          simp only [List.length_cons] at hlen
          simp only [List.length_append, List.length_singleton]
          omega)]
        simp
    · have hrd : rowDots (a :: rest) j i = rowDots rest (j + 1) i := by
        simp only [rowDots]
        rw [if_neg ha]
      rw [hrd] at hlen ⊢
      unfold scanRowCells
      rw [if_neg ha]
      exact ih (j + 1) i acc hlen

theorem scanRows_spec : ∀ (rows : List (List Char)) (i : Int) (acc : List Cell),
    acc.length + (gridDots rows i).length ≤ 2 →
    scanRows rows i acc = some (acc ++ gridDots rows i) := by
  intro rows
  induction rows with
  | nil =>
    intro i acc _
    simp [scanRows, gridDots]
  | cons row rest ih =>
    intro i acc hlen
    have hgd : gridDots (row :: rest) i = rowDots row 0 i ++ gridDots rest (i + 1) := rfl
    rw [hgd] at hlen ⊢
    unfold scanRows
    rw [scanRowCells_spec row 0 i acc (by
      simp only [List.length_append] at hlen ⊢
      omega)]
    show scanRows rest (i + 1) (acc ++ rowDots row 0 i) = _
    rw [ih (i + 1) (acc ++ rowDots row 0 i) (by
      simp only [List.length_append] at hlen ⊢
      omega)]
    simp

theorem scanEmpties_spec {g : Grid} (h : (gridDots g 0).length ≤ 2) :
    scanEmpties g = some (gridDots g 0) := by
  unfold scanEmpties
  have := scanRows_spec g 0 [] (by simpa using h)
  simpa using this

/-- The grid characterization packaged for reuse. -/
theorem buildGrid_char {pieces : List Piece} {g : Grid} (hb : buildGrid pieces = some g)
    (h : ∀ p ∈ pieces, inB p) :
    dims g ∧ ∀ c : Cell, inBCell c → (cellAt g c ≠ '.' ↔ c ∈ positions pieces) := by
  obtain ⟨g2, hb2, hd2, hchar⟩ := buildGrid_spec h
  have hgg : g2 = g := Option.some.inj (hb2.symm.trans hb)
  subst hgg
  exact ⟨hd2, hchar⟩

theorem goodBoard_mkBoard {b : Board} (hg : GoodBoard b) :
    mkBoard b.pieces = some ⟨b.pieces, b.grid, gridDots b.grid 0⟩ := by
  have hd : dims b.grid := (buildGrid_char hg.grd hg.ib).1
  unfold mkBoard
  rw [hg.grd]
  show (scanEmpties b.grid >>= fun es => pure (⟨b.pieces, b.grid, es⟩ : Board)) = _
  rw [scanEmpties_spec (gridDots_len_le hg hd)]
  rfl



/-! ### C7: every real slide is reversible up to the canonical hash -/

theorem fixStep_sub {g : Grid} {e2 : Cell} :
    ∀ (fuel idx : Nat) (lst l' : List Cell),
      fixStep g e2 fuel idx lst = some l' → ∀ x ∈ l', x ∈ lst ∨ x = e2 := by
  intro fuel
  induction fuel with
  | zero =>
    intro idx lst l' h x hx
    have h' : lst = l' := Option.some.inj h
    rw [← h'] at hx
    exact Or.inl hx
  | succ fuel ih =>
    intro idx lst l' h x hx
    unfold fixStep at h
    by_cases hlt : idx < lst.length
    · rw [dif_pos hlt] at h
      have h2 : (match getCell g (lst.get ⟨idx, hlt⟩).2 (lst.get ⟨idx, hlt⟩).1 with
        | none => none
        | some c =>
          if c ≠ '.' then
            fixStep g e2 fuel (idx + 1) ((lst.erase (lst.get ⟨idx, hlt⟩)) ++ [e2])
          else fixStep g e2 fuel (idx + 1) lst) = some l' := h
      rcases hgc : getCell g (lst.get ⟨idx, hlt⟩).2 (lst.get ⟨idx, hlt⟩).1 with _ | c <;>
        rw [hgc] at h2
      · exact Option.noConfusion h2
      · have h3 : (if c ≠ '.' then
            fixStep g e2 fuel (idx + 1) ((lst.erase (lst.get ⟨idx, hlt⟩)) ++ [e2])
          else fixStep g e2 fuel (idx + 1) lst) = some l' := h2
        by_cases hne : c ≠ '.'
        · rw [if_pos hne] at h3
          rcases ih _ _ _ h3 x hx with h4 | h4
          · rcases List.mem_append.mp h4 with h5 | h5
            · exact Or.inl (List.mem_of_mem_erase h5)
            · exact Or.inr (List.mem_singleton.mp h5)
          · exact Or.inr h4
        · rw [if_neg hne] at h3
          exact ih _ _ _ h3 x hx
    · rw [dif_neg hlt] at h
      have h' : lst = l' := Option.some.inj h
      rw [← h'] at hx
      exact Or.inl hx

theorem fixEmpty_sub {g : Grid} {e2 : Cell} {lst l' : List Cell}
    (h : fixEmpty g e2 lst = some l') : ∀ x ∈ l', x ∈ lst ∨ x = e2 :=
  fixStep_sub lst.length 0 lst l' h

/-- C7: from a reachable board, a real one-cell slide that the tracked
empty list admits produces a board from which the opposite slide of the
moved piece is again accepted by move_piece and rebuilds a grid equal to
the original — Board.__hash__ hashes exactly that grid. -/
theorem C7_reversible {b : Board} {piece : Piece} {d : Dir} {nb : Board}
    (hg : GoodBoard b) (hreal : realPiece piece)
    (hck : checkCellOf piece d ∈ b.empty)
    (hmv : move_piece b piece d = MoveRes.moved nb) :
    ∃ nb2 : Board, move_piece nb (movedOf piece d) (oppDir d) = MoveRes.moved nb2 ∧
      nb2.grid = b.grid := by
  obtain ⟨pre, post, hsplit, hfree, hgd, hcase⟩ := move_piece_moved_inv hmv
  rcases hcase with ⟨hnot, _⟩ | ⟨_, hivn2, b0, esF, hmk, hfx, hnb⟩
  · exact absurd hck hnot
  have hpieceb : piece ∈ b.pieces := by
    rw [hsplit]
    exact List.mem_append_right _ (List.mem_cons_self _ _)
  have hpieceinB : inB piece := hg.ib piece hpieceb
  obtain ⟨hpw, hocc, hivn, hlen, hibn, hbgr⟩ := move_piece_invariant hg hmv
  have hnbp : nb.pieces = pre ++ movedOf piece d :: post := by
    rw [hnb]
    exact (mkBoard_some hmk).1
  have hnbg : nb.grid = b0.grid := by rw [hnb]
  have hnbe : nb.empty = esF := by rw [hnb]
  obtain ⟨hdnb, hchar⟩ := buildGrid_char hbgr hibn
  have hnE1in : inBCell (nE1Of piece d) := (nE_inB hpieceinB d).1
  have hnE1mem : nE1Of piece d ∈ footprint piece := nE1_mem_footprint hreal d
  -- the vacated cell is free in the new grid
  have hfreepos : nE1Of piece d ∉ positions (pre ++ movedOf piece d :: post) := by
    have hpwb := hg.pw
    rw [hsplit] at hpwb
    obtain ⟨hpre, hcons, hcross⟩ := List.pairwise_append.mp hpwb
    have hpost := (List.pairwise_cons.mp hcons).1
    intro hmem
    obtain ⟨q, hq, hcf⟩ := mem_positions.mp hmem
    rcases List.mem_append.mp hq with hq1 | hq2
    · exact absurd hnE1mem (hcross q hq1 piece (List.mem_cons_self _ _) _ hcf)
    · rcases List.mem_cons.mp hq2 with rfl | hq3
      · exact absurd hcf (nE1_not_mem_moved hreal d)
      · exact absurd hcf (hpost q hq3 _ hnE1mem)
  have hnE1dot : cellAt nb.grid (nE1Of piece d) = '.' := by
    by_contra hne
    have hmem := (hchar _ hnE1in).mp hne
    rw [hnbp] at hmem
    exact hfreepos hmem
  have hgcnE1 : getCell nb.grid (nE1Of piece d).2 (nE1Of piece d).1 = some '.' := by
    obtain ⟨hb1, hb2, hb3, hb4⟩ := hnE1in
    have := getCell_in hdnb hb1 hb2 hb3 hb4
    rw [← hnE1dot]
    exact this
  have hnE1esF : nE1Of piece d ∈ esF := by
    refine fixEmpty_mem hfx ?_ ?_
    · exact List.mem_append_right _ (List.mem_singleton.mpr rfl)
    · rw [← hnbg]
      exact hgcnE1
  -- the reverse trial
  have hmovedinB : inB (movedOf piece d) := inB_movedOf hpieceinB hgd
  have hrealm : realPiece (movedOf piece d) := by
    obtain ⟨hf1, hf2, hf3⟩ := movedOf_flags piece d
    unfold realPiece at hreal ⊢
    rw [hf1, hf2, hf3]
    exact hreal
  have hfree2 : ∀ q ∈ pre, q ≠ movedOf piece d := by
    intro q hq hqe
    have hpwn := hpw
    rw [hnbp] at hpwn
    obtain ⟨_, _, hcross2⟩ := List.pairwise_append.mp hpwn
    have hR := hcross2 q hq (movedOf piece d) (List.mem_cons_self _ _)
    obtain ⟨c0, hc0⟩ := List.exists_mem_of_ne_nil _ (footprint_real_ne_nil hrealm)
    rw [hqe] at hR
    exact hR c0 hc0 hc0
  have hred : move_piece nb (movedOf piece d) (oppDir d) =
      mpBody pre (movedOf piece d) post (oppDir d) esF := by
    unfold move_piece
    rw [hnbp, hnbe]
    have := mpLoop_fwd (movedOf piece d) (oppDir d) esF pre post [] hfree2
    simpa using this
  -- the reverse tail succeeds and rebuilds the parent grid
  have hdb : dims b.grid := (buildGrid_char hg.grd hg.ib).1
  have hesb : ∀ x ∈ b.empty, inBCell x := by
    intro x hx
    have hxe : x ∈ emptyF b.grid := by
      rw [← hg.emp]
      exact List.mem_toFinset.mpr hx
    exact mem_allCellsF.mp (Finset.mem_of_mem_filter x hxe)
  have hnE2rin : inBCell (nE2Of (movedOf piece d) (oppDir d)) :=
    (nE_inB hmovedinB (oppDir d)).2
  have hlb : ∀ x ∈ (esF.erase (nE1Of piece d)) ++ [nE1Of (movedOf piece d) (oppDir d)],
      inBCell x := by
    intro x hx
    rcases List.mem_append.mp hx with hx1 | hx2
    · rcases fixEmpty_sub hfx x (List.mem_of_mem_erase hx1) with hx3 | hx3
      · rcases List.mem_append.mp hx3 with hx4 | hx5
        · exact hesb x (List.mem_of_mem_erase hx4)
        · rw [List.mem_singleton.mp hx5]
          exact hnE1in
      · rw [hx3]
        exact (nE_inB hpieceinB d).2
    · rw [List.mem_singleton.mp hx2]
      exact (nE_inB hmovedinB (oppDir d)).1
  obtain ⟨esF2, hfx2, _⟩ := fixEmpty_some hdb hnE2rin hlb
  have hfin := mpFinish_moved_fwd hg.iv (goodBoard_mkBoard hg) hfx2
  refine ⟨{ pieces := b.pieces, grid := b.grid, empty := esF2 }, ?_, rfl⟩
  rw [hred, mpBody_eq, if_pos (guardOf_rev hpieceinB d), checkCellOf_rev,
    if_pos hnE1esF, movedOf_inv, ← hsplit]
  exact hfin

/-- Witness for C7_reversible: the horizontal piece at (1, 3) of the
standard board slides onto the empty cell (1, 4) and back. -/
theorem C7_reversible_witness :
    GoodBoard c4board ∧ realPiece c7piece ∧
    checkCellOf c7piece Dir.up ∈ c4board.empty ∧
    move_piece c4board c7piece Dir.up = MoveRes.moved c7nb ∧
    ∃ nb2 : Board, move_piece c7nb (movedOf c7piece Dir.up) (oppDir Dir.up) =
      MoveRes.moved nb2 ∧ nb2.grid = c4board.grid := by
  have hmv : move_piece c4board c7piece Dir.up = MoveRes.moved c7nb := by decide
  exact ⟨goodBoard_c4, by decide, by decide, hmv,
    C7_reversible goodBoard_c4 (by decide) (by decide) hmv⟩



/-! ### Helper facts for the move-generator equivalence -/

theorem GoodBoard.empty_inB {b : Board} (hg : GoodBoard b) : ∀ x ∈ b.empty, inBCell x := by
  intro x hx
  have hxe : x ∈ emptyF b.grid := by
    rw [← hg.emp]
    exact List.mem_toFinset.mpr hx
  exact mem_allCellsF.mp (Finset.mem_of_mem_filter x hxe)

theorem pre_free {pieces pre post : List Piece} {p : Piece} (hpw : PW pieces)
    (hsplit : pieces = pre ++ p :: post) (hne : footprint p ≠ []) :
    ∀ q ∈ pre, q ≠ p := by
  intro q hq hqe
  rw [hsplit] at hpw
  obtain ⟨_, _, hcross⟩ := List.pairwise_append.mp hpw
  have hR := hcross q hq p (List.mem_cons_self _ _)
  obtain ⟨c0, hc0⟩ := List.exists_mem_of_ne_nil _ hne
  rw [hqe] at hR
  exact hR c0 hc0 hc0

theorem guardOf_of_moved {p : Piece} {d : Dir} (h : inB (movedOf p d)) : guardOf p d := by
  obtain ⟨h1, h2, h3, h4⟩ := h
  have hs := shape_movedOf p d
  rw [hs] at h2 h4
  cases d <;> simp only [movedOf] at h1 h2 h3 h4 <;> simp only [guardOf] <;> omega

theorem checkCell_mem_moved {p : Piece} (h : realPiece p) (d : Dir) :
    checkCellOf p d ∈ footprint (movedOf p d) := by
  rcases real_cases p h with ⟨hs, hf⟩ | ⟨hs, hf⟩ | ⟨hs, hf⟩ | ⟨hs, hf⟩ <;>
    cases d <;> rw [footprint_movedOf, hf] <;>
    simp [checkCellOf, dirDelta, hs, Prod.ext_iff] <;> omega

theorem checkCell_not_self {p : Piece} (h : realPiece p) (d : Dir) :
    checkCellOf p d ∉ footprint p := by
  rcases real_cases p h with ⟨hs, hf⟩ | ⟨hs, hf⟩ | ⟨hs, hf⟩ | ⟨hs, hf⟩ <;>
    cases d <;> rw [hf] <;> simp [checkCellOf, hs, Prod.ext_iff] <;> omega

theorem probe_mem {p : Piece} (h : realPiece p) (d : Dir) :
    ((checkCellOf p d).1 - (dirDelta d).1, (checkCellOf p d).2 - (dirDelta d).2) ∈
      footprint p := by
  rcases real_cases p h with ⟨hs, hf⟩ | ⟨hs, hf⟩ | ⟨hs, hf⟩ | ⟨hs, hf⟩ <;>
    cases d <;> rw [hf] <;> simp [checkCellOf, dirDelta, hs, Prod.ext_iff] <;> omega

theorem pieceAt_iff {q : Piece} (h : realPiece q) (x y : Int) :
    pieceAt q x y = true ↔ (x, y) ∈ footprint q := by
  rcases h with ⟨h1, h2, h3⟩ | ⟨h1, h2, h3⟩ | ⟨h1, h2, h3 | h3⟩
  · simp [pieceAt, footprint, h1, h2, h3]
  · simp [pieceAt, footprint, h1, h2, h3]
  · simp [pieceAt, footprint, h1, h2, h3]
  · have hne : q.orientation ≠ some 'h' := by
      rw [h3]
      simp
    simp [pieceAt, footprint, h1, h2, h3, hne]

theorem find?_prefix_none {α : Type} (pr : α → Bool) :
    ∀ (l1 l2 : List α), (∀ q ∈ l1, pr q = false) → (l1 ++ l2).find? pr = l2.find? pr := by
  intro l1
  induction l1 with
  | nil =>
    intro l2 _
    simp
  | cons a rest ih =>
    intro l2 hf
    have ha : pr a = false := hf a (List.mem_cons_self _ _)
    simp only [List.cons_append, List.find?_cons, ha]
    exact ih l2 (fun q hq => hf q (List.mem_cons_of_mem a hq))

theorem get_piece_at_eq {b : Board} {pre post : List Piece} {p : Piece}
    (hreal : ∀ q ∈ b.pieces, realPiece q) (hpw : PW b.pieces)
    (hsplit : b.pieces = pre ++ p :: post) {x y : Int} (hxy : (x, y) ∈ footprint p) :
    get_piece_at b x y = some p := by
  have hpmem : p ∈ b.pieces := by
    rw [hsplit]
    exact List.mem_append_right _ (List.mem_cons_self _ _)
  have hpreal : realPiece p := hreal p hpmem
  have hpw2 := hpw
  rw [hsplit] at hpw2
  obtain ⟨_, _, hcross⟩ := List.pairwise_append.mp hpw2
  have hprefree : ∀ q ∈ pre, (fun q2 => pieceAt q2 x y) q = false := by
    intro q hq
    have hR := hcross q hq p (List.mem_cons_self _ _)
    have hqr : realPiece q := by
      refine hreal q ?_
      rw [hsplit]
      exact List.mem_append_left _ hq
    rw [← Bool.not_eq_true, pieceAt_iff hqr]
    intro hmem
    exact hR _ hmem hxy
  have hp : pieceAt p x y = true := by
    rw [pieceAt_iff hpreal]
    exact hxy
  unfold get_piece_at
  rw [hsplit, find?_prefix_none _ pre (p :: post) hprefree]
  exact List.find?_cons_of_pos post hp

theorem gridDots_card_le {g : Grid} (hd : dims g) :
    (gridDots g 0).length ≤ (emptyF g).card := by
  have hsub : (gridDots g 0).toFinset ⊆ emptyF g := by
    intro c hc
    rw [List.mem_toFinset] at hc
    obtain ⟨hib, hdot⟩ := gridDots_sub hd c hc
    unfold emptyF
    rw [Finset.mem_filter, mem_allCellsF]
    exact ⟨hib, hdot⟩
  have := Finset.card_le_card hsub
  rwa [List.toFinset_card_of_nodup (gridDots_nodup g 0)] at this

theorem mkBoard_total {np : List Piece} (hib : ∀ p ∈ np, inB p)
    (hiv : is_valid np = true) (hlen : np.length = 10) :
    ∃ g, buildGrid np = some g ∧
      mkBoard np = some ⟨np, g, gridDots g 0⟩ := by
  obtain ⟨g, hbg, hd, hchar⟩ := buildGrid_spec hib
  have hocc : occF g = positions np := occF_eq_positions hbg hib
  have hcard : (positions np).card = 18 := by
    unfold is_valid at hiv
    rw [beq_iff_eq] at hiv
    rw [hiv, hlen]
  have hemp : (emptyF g).card = 2 := by
    have := occ_empty_split g
    rw [hocc, hcard] at this
    omega
  have hdots : (gridDots g 0).length ≤ 2 := by
    have := gridDots_card_le hd
    rw [hemp] at this
    exact this
  refine ⟨g, hbg, ?_⟩
  unfold mkBoard
  rw [hbg]
  show (scanEmpties g >>= fun es => pure (⟨np, g, es⟩ : Board)) = _
  rw [scanEmpties_spec hdots]
  rfl

theorem intRange_mem {a b r : Int} (h : r ∈ intRange a b) : a ≤ r ∧ r < b := by
  have h2 : ∃ q : Int, (∃ k : Nat, (k : Int) < b - a ∧ q = (k : Int)) ∧ a + q = r := by
    simpa [intRange] using h
  obtain ⟨q, ⟨k, hk, hq⟩, hr⟩ := h2
  omega

theorem lc_inner_total {g : Grid} (hd : dims g) {r : Int} (hr : 0 ≤ r ∧ r < 5) :
    ∀ (cols : List Int), (∀ c ∈ cols, 0 ≤ c ∧ c < 4) → ∀ acc : Int,
      ∃ v, cols.foldlM (fun acc2 col => do
        let c ← getCell g r col
        pure (if c ≠ '.' then acc2 + 1 else acc2)) acc = some v := by
  intro cols
  induction cols with
  | nil =>
    intro _ acc
    exact ⟨acc, rfl⟩
  | cons col rest ih =>
    intro hb acc
    have hcb := hb col (List.mem_cons_self _ _)
    have hgc : getCell g r col = some (cellAt g (col, r)) :=
      getCell_in hd hcb.1 hcb.2 hr.1 hr.2
    obtain ⟨v, hv⟩ := ih (fun c hc => hb c (List.mem_cons_of_mem _ hc))
      (if cellAt g (col, r) ≠ '.' then acc + 1 else acc)
    refine ⟨v, ?_⟩
    rw [List.foldlM_cons, hgc]
    exact hv

theorem lc_inner_col_total {g : Grid} (hd : dims g) {col : Int} (hc : 0 ≤ col ∧ col < 4) :
    ∀ (rows : List Int), (∀ r ∈ rows, 0 ≤ r ∧ r < 5) → ∀ acc : Int,
      ∃ v, rows.foldlM (fun acc2 r => do
        let c ← getCell g r col
        pure (if c ≠ '.' then acc2 + 1 else acc2)) acc = some v := by
  intro rows
  induction rows with
  | nil =>
    intro _ acc
    exact ⟨acc, rfl⟩
  | cons r rest ih =>
    intro hb acc
    have hrb := hb r (List.mem_cons_self _ _)
    have hgc : getCell g r col = some (cellAt g (col, r)) :=
      getCell_in hd hc.1 hc.2 hrb.1 hrb.2
    obtain ⟨v, hv⟩ := ih (fun q hq => hb q (List.mem_cons_of_mem _ hq))
      (if cellAt g (col, r) ≠ '.' then acc + 1 else acc)
    refine ⟨v, ?_⟩
    rw [List.foldlM_cons, hgc]
    exact hv

theorem lc_outer_row_total {g : Grid} (hd : dims g) (cols : List Int)
    (hcols : ∀ c ∈ cols, 0 ≤ c ∧ c < 4) :
    ∀ (rows : List Int), (∀ r ∈ rows, 0 ≤ r ∧ r < 5) → ∀ acc : Int,
      ∃ v, rows.foldlM (fun acc2 r => cols.foldlM (fun acc3 col => do
        let c ← getCell g r col
        pure (if c ≠ '.' then acc3 + 1 else acc3)) acc2) acc = some v := by
  intro rows
  induction rows with
  | nil =>
    intro _ acc
    exact ⟨acc, rfl⟩
  | cons r rest ih =>
    intro hb acc
    have hrb := hb r (List.mem_cons_self _ _)
    obtain ⟨acc2, hacc2⟩ := lc_inner_total hd hrb cols hcols acc
    obtain ⟨v, hv⟩ := ih (fun q hq => hb q (List.mem_cons_of_mem _ hq)) acc2
    refine ⟨v, ?_⟩
    rw [List.foldlM_cons, hacc2]
    exact hv

theorem lcRowSum_total {b : Board} {p : Piece} (hd : dims b.grid) (hib : inB p)
    (hgl : p.is_goal = true) : ∃ v, lcRowSum b p = some v := by
  have hshape : p.shape = (2, 2) := by simp [Piece.shape, hgl]
  obtain ⟨h1, h2, h3, h4⟩ := hib
  rw [hshape] at h2 h4
  unfold lcRowSum
  by_cases hy : p.coord_y < 3
  · rw [if_pos hy]
    have hrows : ∀ r ∈ intRange (p.coord_y + 2) 4, 0 ≤ r ∧ r < 5 := by
      intro r hr
      have := intRange_mem hr
      omega
    have hcols : ∀ c ∈ intRange p.coord_x (p.coord_x + 2), 0 ≤ c ∧ c < 4 := by
      intro c hc
      have := intRange_mem hc
      omega
    exact lc_outer_row_total hd _ hcols _ hrows 0
  · rw [if_neg hy]
    exact ⟨0, rfl⟩

theorem lcColSum_total {b : Board} {p : Piece} (hib : inB p) :
    ∃ v, lcColSum b p = some v := by
  obtain ⟨h1, _, _, _⟩ := hib
  unfold lcColSum
  by_cases hx : p.coord_x < 1
  · rw [if_pos hx]
    have hemp : intRange (p.coord_x + 2) 2 = [] := by
      unfold intRange
      have h0 : (2 - (p.coord_x + 2)).toNat = 0 := by omega
      rw [h0]
      rfl
    rw [hemp]
    exact ⟨0, rfl⟩
  · rw [if_neg hx]
    exact ⟨0, rfl⟩

theorem heuristicT_total {b : Board} (hd : dims b.grid) (hib : ∀ p ∈ b.pieces, inB p) :
    ∃ h, heuristicT b = some h := by
  have hlc : ∃ lc, linear_conflict b = some lc := by
    unfold linear_conflict
    rcases hfind : b.pieces.find? (fun p => p.is_goal) with _ | caocao
    · refine ⟨0, ?_⟩
      rw [hfind]
      rfl
    · have hmem : caocao ∈ b.pieces := List.mem_of_find?_eq_some hfind
      have hgl : caocao.is_goal = true := by
        have := List.find?_some hfind
        simpa using this
      obtain ⟨rv, hrv⟩ := lcRowSum_total hd (hib _ hmem) hgl
      obtain ⟨cv, hcv⟩ := lcColSum_total (p := caocao) (b := b) (hib _ hmem)
      refine ⟨(rv + cv) * 2, ?_⟩
      rw [hfind]
      show (lcRowSum b caocao >>= fun rowC => lcColSum b caocao >>= fun colC =>
        pure ((rowC + colC) * 2)) = some ((rv + cv) * 2)
      rw [hrv]
      show (lcColSum b caocao >>= fun colC => pure ((rv + colC) * 2)) = _
      rw [hcv]
      rfl
  obtain ⟨lc, hlc⟩ := hlc
  refine ⟨lc + b.heuristic, ?_⟩
  unfold heuristicT
  rw [hlc]
  rfl




/-! ### move_piece never raises from a reachable board -/

theorem mpLoop_crash_inv (piece : Piece) (d : Dir) (es : List Cell) :
    ∀ (pieces acc : List Piece),
      mpLoop piece d es acc pieces = MoveRes.crash →
      ∃ pre post, pieces = pre ++ piece :: post ∧
        mpBody (acc ++ pre) piece post d es = MoveRes.crash := by
  intro pieces
  induction pieces with
  | nil =>
    intro acc h
    exact MoveRes.noConfusion h
  | cons p rest ih =>
    intro acc h
    unfold mpLoop at h
    by_cases hp : p = piece
    · rw [if_pos hp] at h
      subst hp
      exact ⟨[], rest, rfl, by simpa using h⟩
    · rw [if_neg hp] at h
      obtain ⟨pre, post, hsplit, hbody⟩ := ih (acc ++ [p]) h
      refine ⟨p :: pre, post, by simp [hsplit], ?_⟩
      simpa [List.append_assoc] using hbody

theorem mpFinish_crash_inv {np : List Piece} {es : List Cell} {e2 : Cell}
    (h : mpFinish np es e2 = MoveRes.crash) :
    is_valid np = true ∧ (mkBoard np = none ∨
      ∃ b0, mkBoard np = some b0 ∧ fixEmpty b0.grid e2 es = none) := by
  unfold mpFinish at h
  by_cases hv : is_valid np
  · rw [if_pos hv] at h
    rcases hmk : mkBoard np with _ | b0 <;> rw [hmk] at h
    · exact ⟨hv, Or.inl rfl⟩
    · have h2 : (match fixEmpty b0.grid e2 es with
        | none => MoveRes.crash
        | some esF => MoveRes.moved { b0 with empty := esF }) = MoveRes.crash := h
      rcases hfx : fixEmpty b0.grid e2 es with _ | esF <;> rw [hfx] at h2
      · exact ⟨hv, Or.inr ⟨b0, rfl, hfx⟩⟩
      · exact MoveRes.noConfusion h2
  · rw [if_neg hv] at h
    exact MoveRes.noConfusion h

theorem move_piece_no_crash {b : Board} (hg : GoodBoard b)
    (hreal : ∀ q ∈ b.pieces, realPiece q) (piece : Piece) (d : Dir) :
    move_piece b piece d ≠ MoveRes.crash := by
  intro hcr
  unfold move_piece at hcr
  obtain ⟨pre, post, hsplit, hbody⟩ := mpLoop_crash_inv piece d b.empty b.pieces [] hcr
  rw [List.nil_append, mpBody_eq] at hbody
  by_cases hgd : guardOf piece d
  swap
  · rw [if_neg hgd] at hbody
    exact MoveRes.noConfusion hbody
  rw [if_pos hgd] at hbody
  have hpmem : piece ∈ b.pieces := by
    rw [hsplit]
    exact List.mem_append_right _ (List.mem_cons_self _ _)
  have hpinB : inB piece := hg.ib piece hpmem
  have hpreal : realPiece piece := hreal piece hpmem
  have hnE2in : inBCell (nE2Of piece d) :=
    footprint_inB hpinB _ (nE2_mem_footprint hpreal d)
  have hnE1in : inBCell (nE1Of piece d) :=
    footprint_inB hpinB _ (nE1_mem_footprint hpreal d)
  by_cases hck : checkCellOf piece d ∈ b.empty
  · rw [if_pos hck] at hbody
    obtain ⟨hivc, hbad⟩ := mpFinish_crash_inv hbody
    have hibc : ∀ q ∈ pre ++ movedOf piece d :: post, inB q := by
      intro q hq
      rcases List.mem_append.mp hq with hq1 | hq2
      · refine hg.ib q ?_
        rw [hsplit]
        exact List.mem_append_left _ hq1
      · rcases List.mem_cons.mp hq2 with rfl | hq3
        · exact inB_movedOf hpinB hgd
        · refine hg.ib q ?_
          rw [hsplit]
          exact List.mem_append_right _ (List.mem_cons_of_mem _ hq3)
    have hlenc : (pre ++ movedOf piece d :: post).length = 10 := by
      have := hg.len10
      rw [hsplit] at this
      simpa using this
    obtain ⟨g, hbg, hmk⟩ := mkBoard_total hibc hivc hlenc
    rcases hbad with hnone | ⟨b0, hmk0, hfxn⟩
    · rw [hmk] at hnone
      exact Option.noConfusion hnone
    · have hb0 : b0 = ⟨pre ++ movedOf piece d :: post, g, gridDots g 0⟩ :=
        Option.some.inj (hmk0.symm.trans hmk)
      have hdg : dims g := (buildGrid_char hbg hibc).1
      have hesin : ∀ x ∈ (b.empty.erase (checkCellOf piece d)) ++ [nE1Of piece d],
          inBCell x := by
        intro x hx
        rcases List.mem_append.mp hx with hx1 | hx2
        · exact hg.empty_inB x (List.mem_of_mem_erase hx1)
        · rw [List.mem_singleton.mp hx2]
          exact hnE1in
      obtain ⟨l', hfx, _⟩ := fixEmpty_some hdg hnE2in hesin
      rw [hb0] at hfxn
      rw [hfxn] at hfx
      exact Option.noConfusion hfx
  · rw [if_neg hck] at hbody
    rw [← hsplit] at hbody
    obtain ⟨_, hbad⟩ := mpFinish_crash_inv hbody
    rcases hbad with hnone | ⟨b0, hmk0, hfxn⟩
    · rw [goodBoard_mkBoard hg] at hnone
      exact Option.noConfusion hnone
    · have hb0 : b0 = ⟨b.pieces, b.grid, gridDots b.grid 0⟩ :=
        Option.some.inj (hmk0.symm.trans (goodBoard_mkBoard hg))
      have hdb : dims b.grid := (buildGrid_char hg.grd hg.ib).1
      obtain ⟨l', hfx, _⟩ := fixEmpty_some hdb hnE2in hg.empty_inB
      rw [hb0] at hfxn
      rw [hfxn] at hfx
      exact Option.noConfusion hfx

/-! ### Every exhaustively legal slide is produced by the anchored trial -/

theorem move_piece_of_exhaustive {b : Board} (hg : GoodBoard b)
    (hreal : ∀ q ∈ b.pieces, realPiece q)
    {pre post : List Piece} {p : Piece} {d : Dir}
    (hsplit : b.pieces = pre ++ p :: post)
    (hmoved : inB (movedOf p d)) (hpwc : PW (pre ++ movedOf p d :: post))
    {g : Grid} (hbgc : buildGrid (pre ++ movedOf p d :: post) = some g) :
    checkCellOf p d ∈ b.empty ∧
    ∃ nb, move_piece b p d = MoveRes.moved nb ∧ nb.grid = g ∧
      nb.pieces = pre ++ movedOf p d :: post := by
  have hpmem : p ∈ b.pieces := by
    rw [hsplit]
    exact List.mem_append_right _ (List.mem_cons_self _ _)
  have hpinB : inB p := hg.ib p hpmem
  have hpreal : realPiece p := hreal p hpmem
  have hgd : guardOf p d := guardOf_of_moved hmoved
  have hmreal : realPiece (movedOf p d) := by
    obtain ⟨hf1, hf2, hf3⟩ := movedOf_flags p d
    unfold realPiece at hpreal ⊢
    rw [hf1, hf2, hf3]
    exact hpreal
  -- the checked cell is genuinely empty, hence tracked
  have hckmoved : checkCellOf p d ∈ footprint (movedOf p d) := checkCell_mem_moved hpreal d
  have hckin : inBCell (checkCellOf p d) := footprint_inB hmoved _ hckmoved
  have hckfree : checkCellOf p d ∉ positions b.pieces := by
    rw [hsplit]
    intro hmem
    obtain ⟨q, hq, hcf⟩ := mem_positions.mp hmem
    obtain ⟨_, hconsc, hcrossc⟩ := List.pairwise_append.mp hpwc
    have hpostc := (List.pairwise_cons.mp hconsc).1
    rcases List.mem_append.mp hq with hq1 | hq2
    · exact hcrossc q hq1 (movedOf p d) (List.mem_cons_self _ _) _ hcf hckmoved
    · rcases List.mem_cons.mp hq2 with rfl | hq3
      · exact checkCell_not_self hpreal d hcf
      · exact hpostc q hq3 _ hckmoved hcf
  have hdb : dims b.grid := (buildGrid_char hg.grd hg.ib).1
  have hchk : checkCellOf p d ∈ b.empty := by
    have hdot : cellAt b.grid (checkCellOf p d) = '.' := by
      by_contra hne
      exact hckfree (((buildGrid_char hg.grd hg.ib).2 _ hckin).mp hne)
    have : checkCellOf p d ∈ emptyF b.grid := by
      unfold emptyF
      rw [Finset.mem_filter, mem_allCellsF]
      exact ⟨hckin, hdot⟩
    rw [← hg.emp] at this
    exact List.mem_toFinset.mp this
  -- the candidate passes the recomputed validity check
  have hibc : ∀ q ∈ pre ++ movedOf p d :: post, inB q := by
    intro q hq
    rcases List.mem_append.mp hq with hq1 | hq2
    · refine hg.ib q ?_
      rw [hsplit]
      exact List.mem_append_left _ hq1
    · rcases List.mem_cons.mp hq2 with rfl | hq3
      · exact hmoved
      · refine hg.ib q ?_
        rw [hsplit]
        exact List.mem_append_right _ (List.mem_cons_of_mem _ hq3)
  have hlenc : (pre ++ movedOf p d :: post).length = 10 := by
    have := hg.len10
    rw [hsplit] at this
    simpa using this
  have hsumc : sumFp (pre ++ movedOf p d :: post) = 18 := by
    have hpar := hg.sum18
    rw [hsplit, sumFp_append, sumFp_cons] at hpar
    rw [sumFp_append, sumFp_cons, fpF_card_movedOf]
    exact hpar
  have hivc : is_valid (pre ++ movedOf p d :: post) = true := by
    unfold is_valid
    rw [beq_iff_eq, positions_card_of_PW hpwc, hsumc, hlenc]
  obtain ⟨g2, hbg2, hmk⟩ := mkBoard_total hibc hivc hlenc
  have hgg : g2 = g := Option.some.inj (hbg2.symm.trans hbgc)
  subst hgg
  have hdg : dims g2 := (buildGrid_char hbg2 hibc).1
  have hnE2in : inBCell (nE2Of p d) :=
    footprint_inB hpinB _ (nE2_mem_footprint hpreal d)
  have hnE1in : inBCell (nE1Of p d) :=
    footprint_inB hpinB _ (nE1_mem_footprint hpreal d)
  have hesin : ∀ x ∈ (b.empty.erase (checkCellOf p d)) ++ [nE1Of p d], inBCell x := by
    intro x hx
    rcases List.mem_append.mp hx with hx1 | hx2
    · exact hg.empty_inB x (List.mem_of_mem_erase hx1)
    · rw [List.mem_singleton.mp hx2]
      exact hnE1in
  obtain ⟨esF, hfx, _⟩ := fixEmpty_some hdg hnE2in hesin
  have hfree : ∀ q ∈ pre, q ≠ p :=
    pre_free hg.pw hsplit (footprint_real_ne_nil hpreal)
  refine ⟨hchk, { pieces := pre ++ movedOf p d :: post, grid := g2, empty := esF },
    ?_, rfl, rfl⟩
  have hred : move_piece b p d = mpBody pre p post d b.empty := by
    unfold move_piece
    rw [hsplit]
    have := mpLoop_fwd p d b.empty pre post [] hfree
    simpa using this
  rw [hred, mpBody_eq, if_pos hgd, if_pos hchk]
  exact mpFinish_moved_fwd hivc hmk hfx



/-! ### The anchored trial loop: totality and completeness -/

theorem gaStep_eq (cur : State) (visited : List Grid) (ex ey dx dy : Int) (d : Dir) :
    gaStep cur visited ((ex, ey), d, dx, dy) =
      if 0 ≤ ex + dx ∧ ex + dx < 4 ∧ 0 ≤ ey + dy ∧ ey + dy < 5 then
        match getCell cur.board.grid (ey + dy) (ex + dx) with
        | none => none
        | some c =>
          if c ≠ '.' then
            match get_piece_at cur.board (ex + dx) (ey + dy) with
            | none => none
            | some piece =>
              match astar_move cur piece d with
              | StRes.crash => none
              | StRes.noMove => some none
              | StRes.made st => if st.id ∈ visited then some none else some (some st)
          else some none
      else some none := rfl

theorem gaStep_some (cur : State) (visited : List Grid) (hg : GoodBoard cur.board)
    (hreal : ∀ q ∈ cur.board.pieces, realPiece q) (pr : Cell × Dir × Int × Int) :
    ∃ o, gaStep cur visited pr = some o := by
  obtain ⟨⟨ex, ey⟩, d, dx, dy⟩ := pr
  rw [gaStep_eq]
  by_cases hbnd : 0 ≤ ex + dx ∧ ex + dx < 4 ∧ 0 ≤ ey + dy ∧ ey + dy < 5
  swap
  · rw [if_neg hbnd]
    exact ⟨none, rfl⟩
  rw [if_pos hbnd]
  obtain ⟨hb1, hb2, hb3, hb4⟩ := hbnd
  have hdb : dims cur.board.grid := (buildGrid_char hg.grd hg.ib).1
  have hgc : getCell cur.board.grid (ey + dy) (ex + dx) =
      some (cellAt cur.board.grid (ex + dx, ey + dy)) := getCell_in hdb hb1 hb2 hb3 hb4
  rw [hgc]
  by_cases hdot : cellAt cur.board.grid (ex + dx, ey + dy) = '.'
  · refine ⟨none, ?_⟩
    simp [hdot]
  · have hpos : (ex + dx, ey + dy) ∈ positions cur.board.pieces :=
      ((buildGrid_char hg.grd hg.ib).2 _ ⟨hb1, hb2, hb3, hb4⟩).mp hdot
    obtain ⟨q0, hq0, hcf0⟩ := mem_positions.mp hpos
    rcases hgp : get_piece_at cur.board (ex + dx) (ey + dy) with _ | q
    · exfalso
      unfold get_piece_at at hgp
      rw [List.find?_eq_none] at hgp
      refine hgp q0 hq0 ?_
      rw [pieceAt_iff (hreal q0 hq0)]
      exact hcf0
    · rcases hmv2 : astar_move cur q d with _ | _ | st
      · exfalso
        unfold astar_move at hmv2
        rcases hmp : move_piece cur.board q d with _ | _ | nb <;> rw [hmp] at hmv2
        · exact move_piece_no_crash hg hreal q d hmp
        · exact StRes.noConfusion hmv2
        · obtain ⟨_, _, _, _, hibn2, hbgr2⟩ := move_piece_invariant hg hmp
          obtain ⟨hv, hhv⟩ := heuristicT_total (buildGrid_char hbgr2 hibn2).1 hibn2
          have hmv3 : (match heuristicT nb with
            | none => StRes.crash
            | some h => StRes.made (State.mk nb ((cur.depth + 1 : Int) + h)
                (cur.depth + 1) (some cur))) = StRes.crash := hmv2
          rw [hhv] at hmv3
          exact StRes.noConfusion hmv3
      · exact ⟨none, by simp [hdot, hgp, hmv2]⟩
      · by_cases hvst : st.id ∈ visited
        · exact ⟨none, by simp [hdot, hgp, hmv2, hvst]⟩
        · exact ⟨some st, by simp [hdot, hgp, hmv2, hvst]⟩

theorem gaLoop_total (cur : State) (visited : List Grid) :
    ∀ (prs : List (Cell × Dir × Int × Int)),
      (∀ pr ∈ prs, ∃ o, gaStep cur visited pr = some o) →
      ∃ acts, gaLoop cur visited prs = some acts := by
  intro prs
  induction prs with
  | nil =>
    intro _
    exact ⟨[], rfl⟩
  | cons pr rest ih =>
    intro h
    obtain ⟨o, ho⟩ := h pr (List.mem_cons_self _ _)
    obtain ⟨acts, hacts⟩ := ih (fun q hq => h q (List.mem_cons_of_mem _ hq))
    rcases o with _ | st
    · refine ⟨acts, ?_⟩
      unfold gaLoop
      rw [ho]
      exact hacts
    · refine ⟨st :: acts, ?_⟩
      unfold gaLoop
      rw [ho, hacts]
      rfl

theorem gaLoop_complete (cur : State) (visited : List Grid) :
    ∀ (prs : List (Cell × Dir × Int × Int)) (acts : List State),
      gaLoop cur visited prs = some acts →
      ∀ pr ∈ prs, ∀ st : State, gaStep cur visited pr = some (some st) → st ∈ acts := by
  intro prs
  induction prs with
  | nil =>
    intro acts _ pr hpr
    exact absurd hpr (List.not_mem_nil pr)
  | cons pr0 rest ih =>
    intro acts h pr hpr st hstep
    unfold gaLoop at h
    rcases hs0 : gaStep cur visited pr0 with _ | o <;> rw [hs0] at h
    · exact Option.noConfusion h
    · rcases o with _ | st2
      · rcases List.mem_cons.mp hpr with rfl | hpr2
        · rw [hs0] at hstep
          exact Option.noConfusion (Option.some.inj hstep)
        · exact ih acts h pr hpr2 st hstep
      · rcases hrest : gaLoop cur visited rest with _ | acts2 <;> rw [hrest] at h
        · exact Option.noConfusion h
        · have h' : st2 :: acts2 = acts := Option.some.inj h
          rcases List.mem_cons.mp hpr with rfl | hpr2
          · rw [hs0] at hstep
            have : st2 = st := Option.some.inj (Option.some.inj hstep)
            rw [← h', ← this]
            exact List.mem_cons_self _ _
          · have := ih acts2 hrest pr hpr2 st hstep
            rw [← h']
            exact List.mem_cons_of_mem _ this

theorem gaPairs_aux_mem {dd : Dir × Int × Int} {e : Cell} :
    ∀ (es : List Cell), e ∈ es → dd ∈ directions →
      (e, dd) ∈ es.foldr (fun e2 l => directions.map (fun d2 => (e2, d2)) ++ l) [] := by
  intro es
  induction es with
  | nil =>
    intro h _
    exact absurd h (List.not_mem_nil e)
  | cons e0 rest ih =>
    intro he hd
    simp only [List.foldr_cons]
    rcases List.mem_cons.mp he with rfl | h2
    · exact List.mem_append_left _ (List.mem_map.mpr ⟨dd, hd, rfl⟩)
    · exact List.mem_append_right _ (ih h2 hd)

theorem gaPairs_mem {b : Board} {e : Cell} {dd : Dir × Int × Int}
    (he : e ∈ b.empty) (hd : dd ∈ directions) : (e, dd) ∈ gaPairs b :=
  gaPairs_aux_mem b.empty he hd



theorem gaStep_hits {cur : State} {visited : List Grid} {p : Piece} {d : Dir}
    {dx dy : Int} {st : State}
    (hdel : dx = -(dirDelta d).1 ∧ dy = -(dirDelta d).2)
    (hg : GoodBoard cur.board) (hreal : ∀ q ∈ cur.board.pieces, realPiece q)
    {pre post : List Piece} (hsplit : cur.board.pieces = pre ++ p :: post)
    (hmade : astar_move cur p d = StRes.made st) (hnv : st.id ∉ visited) :
    gaStep cur visited (checkCellOf p d, d, dx, dy) = some (some st) := by
  obtain ⟨hdx, hdy⟩ := hdel
  subst hdx hdy
  have hpmem : p ∈ cur.board.pieces := by
    rw [hsplit]
    exact List.mem_append_right _ (List.mem_cons_self _ _)
  have hpreal : realPiece p := hreal p hpmem
  have hpinB : inB p := hg.ib p hpmem
  have hprobe : ((checkCellOf p d).1 + -(dirDelta d).1,
      (checkCellOf p d).2 + -(dirDelta d).2) ∈ footprint p := by
    have := probe_mem hpreal d
    simpa [sub_eq_add_neg] using this
  have hin : inBCell ((checkCellOf p d).1 + -(dirDelta d).1,
      (checkCellOf p d).2 + -(dirDelta d).2) := footprint_inB hpinB _ hprobe
  have hdb : dims cur.board.grid := (buildGrid_char hg.grd hg.ib).1
  rcases hcp : checkCellOf p d with ⟨cx, cy⟩
  rw [hcp] at hprobe hin
  rw [gaStep_eq, if_pos ⟨hin.1, hin.2.1, hin.2.2.1, hin.2.2.2⟩]
  have hgc : getCell cur.board.grid (cy + -(dirDelta d).2) (cx + -(dirDelta d).1) =
      some (cellAt cur.board.grid (cx + -(dirDelta d).1, cy + -(dirDelta d).2)) :=
    getCell_in hdb hin.1 hin.2.1 hin.2.2.1 hin.2.2.2
  simp only [hgc]
  have hne : cellAt cur.board.grid (cx + -(dirDelta d).1, cy + -(dirDelta d).2) ≠ '.' := by
    refine ((buildGrid_char hg.grd hg.ib).2 _ hin).mpr ?_
    exact mem_positions.mpr ⟨p, hpmem, hprobe⟩
  rw [if_pos hne]
  have hgp2 : get_piece_at cur.board (cx + -(dirDelta d).1) (cy + -(dirDelta d).2) =
      some p := get_piece_at_eq hreal hg.pw hsplit hprobe
  simp only [hgp2, hmade]
  rw [if_neg hnv]

/-- C6: for a reachable board with accurate empty-cell tracking and the
parent grid already visited, the empty-cell-anchored get_actions succeeds
and its successor boards are, by canonical id (the grid), exactly the
not-yet-visited results of exhaustively sliding any piece one cell in any
direction subject to full-board revalidation (in-bounds and overlap-free
footprints of the whole candidate list). -/
theorem C6_anchored_equiv (cur : State) (visited : List Grid)
    (hg : GoodBoard cur.board) (hreal : ∀ p ∈ cur.board.pieces, realPiece p)
    (hvis : cur.board.grid ∈ visited) :
    ∃ acts, get_actions cur visited = some acts ∧
      ∀ g : Grid,
        (∃ st ∈ acts, st.id = g) ↔
          ∃ pre p post d, cur.board.pieces = pre ++ p :: post ∧
            inB (movedOf p d) ∧ PW (pre ++ movedOf p d :: post) ∧
            buildGrid (pre ++ movedOf p d :: post) = some g ∧ g ∉ visited := by
  obtain ⟨acts, hacts⟩ := gaLoop_total cur visited (gaPairs cur.board)
    (fun pr _ => gaStep_some cur visited hg hreal pr)
  refine ⟨acts, hacts, ?_⟩
  intro g
  constructor
  · rintro ⟨st, hst, rfl⟩
    obtain ⟨pr, _, hstep⟩ := gaLoop_mem cur visited (gaPairs cur.board) acts hacts st hst
    obtain ⟨piece, hgp, hmade, hnv⟩ := gaStep_made hstep
    obtain ⟨nb, hval, hmv, hh, hsteq⟩ := astar_move_made hmade
    rcases move_piece_case hg.grd hmv with hnull | ⟨pre, post, hsplit, hnp⟩
    · exfalso
      apply hnv
      rw [hsteq]
      show nb.grid ∈ visited
      rw [hnull]
      exact hvis
    · obtain ⟨hpwn, _, _, _, hibn, hbgrn⟩ := move_piece_invariant hg hmv
      rw [hnp] at hpwn hbgrn
      refine ⟨pre, piece, post, pr.2.1, hsplit, ?_, hpwn, ?_, ?_⟩
      · refine hibn (movedOf piece pr.2.1) ?_
        rw [hnp]
        exact List.mem_append_right _ (List.mem_cons_self _ _)
      · rw [hsteq]
        exact hbgrn
      · exact hnv
  · rintro ⟨pre, p, post, d, hsplit, hmoved, hpwc, hbgc, hnvis⟩
    obtain ⟨hchk, nb, hmv, hnbg, hnbp⟩ :=
      move_piece_of_exhaustive hg hreal hsplit hmoved hpwc hbgc
    obtain ⟨_, _, _, _, hibn, hbgr⟩ := move_piece_invariant hg hmv
    obtain ⟨hv, hhv⟩ := heuristicT_total (buildGrid_char hbgr hibn).1 hibn
    have hmade : astar_move cur p d = StRes.made
        (State.mk nb ((cur.depth + 1 : Int) + hv) (cur.depth + 1) (some cur)) := by
      unfold astar_move
      rw [hmv]
      show (match heuristicT nb with
        | none => StRes.crash
        | some h => StRes.made (State.mk nb ((cur.depth + 1 : Int) + h)
            (cur.depth + 1) (some cur))) = _
      rw [hhv]
    have hstid : (State.mk nb ((cur.depth + 1 : Int) + hv) (cur.depth + 1)
        (some cur)).id = g := hnbg
    have hstnv : (State.mk nb ((cur.depth + 1 : Int) + hv) (cur.depth + 1)
        (some cur)).id ∉ visited := by
      rw [hstid]
      exact hnvis
    obtain ⟨dxv, dyv, hdel, hdm⟩ : ∃ dxv dyv,
        (dxv = -(dirDelta d).1 ∧ dyv = -(dirDelta d).2) ∧
          (d, dxv, dyv) ∈ directions := by
      cases d
      · exact ⟨0, -1, ⟨by decide, by decide⟩, by decide⟩
      · exact ⟨0, 1, ⟨by decide, by decide⟩, by decide⟩
      · exact ⟨-1, 0, ⟨by decide, by decide⟩, by decide⟩
      · exact ⟨1, 0, ⟨by decide, by decide⟩, by decide⟩
    refine ⟨State.mk nb ((cur.depth + 1 : Int) + hv) (cur.depth + 1) (some cur),
      ?_, hstid⟩
    exact gaLoop_complete cur visited (gaPairs cur.board) acts hacts
      (checkCellOf p d, d, dxv, dyv) (gaPairs_mem hchk hdm) _
      (gaStep_hits hdel hg hreal hsplit hmade hstnv)

/-- Witness for C6_anchored_equiv at the standard board's root state. -/
theorem C6_anchored_equiv_witness :
    GoodBoard rootC4.board ∧ (∀ p ∈ rootC4.board.pieces, realPiece p) ∧
    rootC4.board.grid ∈ [c4board.grid] ∧
    ∃ acts, get_actions rootC4 [c4board.grid] = some acts ∧
      ∀ g : Grid,
        (∃ st ∈ acts, st.id = g) ↔
          ∃ pre p post d, rootC4.board.pieces = pre ++ p :: post ∧
            inB (movedOf p d) ∧ PW (pre ++ movedOf p d :: post) ∧
            buildGrid (pre ++ movedOf p d :: post) = some g ∧ g ∉ [c4board.grid] :=
  ⟨goodBoard_c4, by decide, by decide,
    C6_anchored_equiv rootC4 [c4board.grid] goodBoard_c4 (by decide) (by decide)⟩


end HRD
